import Mathlib

/- Shallow embedding of the font-override content script (src/content.js) of the
chrome-country-flags repository.  Pure data (CSS rules, stylesheets, DOM nodes,
inline style declarations) is modelled by inductive structures; the mutable
document/engine state (the override style element, the requestedCssFiles set,
the diagnostic run counter) is threaded explicitly.  Machine-visible effects
that the claims talk about (Builder invocations, network fetches) are recorded
in append-only logs inside the state.  A JavaScript exception is modelled by
Except: processSheet returns an error exactly where content.js lets an
exception escape the per-stylesheet try/catch. -/

set_option maxHeartbeats 1000000

namespace FlagFixer

/-- The replacement font name injected ahead of every collected font stack
(constant `replacementFontName` in content.js). -/
def replacementFontName : String := "Twemoji Country Flags"

/-- The fixed id of the override style element (constant `extentionStyleTagId`,
spelling as in the source). -/
def extentionStyleTagId : String := "country-flag-fixer-ext"

/-- Media types whose stylesheets are skipped (array `sheetMediaBlacklist` in
`updateFontFamilyRules`). -/
def sheetMediaBlacklist : List String :=
  ["print", "speech", "aural", "braille", "handheld", "projection", "tty"]

/-- Name of the CSS property the script rewrites. -/
def fontFamilyProp : String := "font-family"

/-- The literal value `inherit`, excluded from collection. -/
def inheritVal : String := "inherit"

/-- The rel attribute value that marks a stylesheet link. -/
def relStylesheet : String := "stylesheet"

/-- The `as` attribute value of a preload-as-style link. -/
def asStyleVal : String := "style"

/-- Node name of link elements. -/
def nodeNameLink : String := "LINK"

/-- Node name of style elements. -/
def nodeNameStyle : String := "STYLE"

/-- The `!important` token. -/
def importantLit : String := "!important"

/-- Substring test on character lists, modelling JavaScript
`String.prototype.includes`. -/
def containsSub (pat : List Char) : List Char → Bool
  | [] => pat.isPrefixOf ([] : List Char)
  | c :: rest => pat.isPrefixOf (c :: rest) || containsSub pat rest

/-- JavaScript `s.includes(pat)` on Lean strings. -/
def strIncludes (s pat : String) : Bool := containsSub pat.toList s.toList

/-- JavaScript `s.toLowerCase()` at the character-list level (ASCII lowering,
which covers the replacement font name the script compares against). -/
def lowerChars (s : String) : List Char := s.toList.map Char.toLower

/-- One CSSOM rule as consumed by the collector loop: `selectorText` is none
when the rule has no selector text (e.g. an at-rule), `fontFamily` is none when
the rule has no style block or the block has no font-family declaration, and
`cssText` is the serialized rule text.  `accessThrows` models a pathological
CSSOM object whose property access raises (such an exception reaches the outer
per-stylesheet catch in `updateFontFamilyRules`). -/
structure CSSRule where
  selectorText : Option String
  fontFamily : Option String
  cssText : String
  accessThrows : Bool
deriving DecidableEq

/-- One collected `{ selectorText, fontFamily }` pair (the objects pushed onto
`fontFamilyRules` in `updateFontFamilyRules`). -/
structure FontFamilyRule where
  selectorText : String
  fontFamily : String
deriving DecidableEq

/-- The owner node of a stylesheet: its `id` and (for links) `rel` attributes.
A stylesheet whose `ownerNode` is null makes `sheet.ownerNode.id` throw outside
the per-stylesheet try block. -/
structure OwnerNode where
  id : String
  rel : Option String
deriving DecidableEq

/-- A handle of one entry of `document.styleSheets`: `directRules` is the
outcome of reading `sheet.cssRules` (an error models the CORS SecurityError). -/
structure StyleSheet where
  ownerNode : Option OwnerNode
  mediaText : String
  href : Option String
  directRules : Except Unit (List CSSRule)

/-- The external fetch-and-reparse collaborator used by the CORS fallback:
`preloadLink href` tells whether `document.querySelector` finds a link element
with that href attribute, and `fetchResult href` is the rule list obtained by
fetching the href and parsing the body in a temporary style element (a network
or parse failure is already collapsed to `[]`, as `fetchCSSRulesFromUrl`
catches it). -/
structure FetchEnv where
  preloadLink : String → Bool
  fetchResult : String → List CSSRule

/-- The mutable state the engine acts on: the `requestedCssFiles` set, the
override style element (`none` when no element with `extentionStyleTagId` is in
the document, otherwise the parsed rules of its text content), and whether
`document.head` is available.  `builderBatches` and `fetchLog` are append-only
observation logs: one entry per `updateStyleTag` invocation (the batch handed
over) and one entry per network fetch actually issued. -/
structure EngineState where
  requestedCssFiles : List String
  override : Option (List CSSRule)
  headAvailable : Bool
  builderBatches : List (List FontFamilyRule)
  fetchLog : List String
deriving DecidableEq

/-- The body of the rule loop in `updateFontFamilyRules` (step 2) for a single
rule: returns the emitted pair, or none when the rule is skipped (no style or
font-family, no selector, literal `inherit`, or the font stack already mentions
the replacement font, case-insensitively). -/
def ruleCandidate (rule : CSSRule) : Option FontFamilyRule :=
  match rule.fontFamily, rule.selectorText with
  | some ff, some sel =>
    if ff = "" ∨ sel = "" then none
    else if ff = inheritVal then none
    else if containsSub (lowerChars replacementFontName) (lowerChars ff) then none
    else some { selectorText := sel, fontFamily := ff }
  | _, _ => none

/-- The rule loop of `updateFontFamilyRules` over one stylesheet's rule list.
A rule whose property access throws aborts the loop (the collected prefix is
discarded, as the local `fontFamilyRules` array never reaches step 3). -/
def collectRulesE : List CSSRule → Except Unit (List FontFamilyRule)
  | [] => Except.ok []
  | rule :: rest =>
    if rule.accessThrows then Except.error ()
    else
      match collectRulesE rest with
      | Except.error e => Except.error e
      | Except.ok ffs => Except.ok ((ruleCandidate rule).toList ++ ffs)

/-- Total version of the rule loop, for stylesheets none of whose rules throw. -/
def collectRules (rules : List CSSRule) : List FontFamilyRule :=
  rules.filterMap ruleCandidate

/-- The synthesized text of one override rule (the template literal in
`createNewStyleTag`). -/
def ruleLine (rule : FontFamilyRule) : String :=
  rule.selectorText ++ " \x7b font-family: \x27" ++ replacementFontName ++ "\x27, "
    ++ rule.fontFamily ++ " !important; \x7d"

/-- The parsed CSSOM rule the browser produces from one synthesized line, under
the round-trip idealization that re-serializing a parsed rule returns its
source text. -/
def mkOverrideRule (rule : FontFamilyRule) : CSSRule :=
  { selectorText := some rule.selectorText
  , fontFamily := some ("\x27" ++ replacementFontName ++ "\x27, " ++ rule.fontFamily)
  , cssText := ruleLine rule
  , accessThrows := false }

/-- `createNewStyleTag` of content.js, at the level of the rule list of the
element it builds: copy every rule of the existing override sheet (if any),
drop new rules whose selector text already occurs among the old rules, and
append the synthesized rules for the survivors. -/
def createNewStyleTag (fontFamilyRules : List FontFamilyRule)
    (existingSheet : Option (List CSSRule)) : List CSSRule :=
  let oldRules := match existingSheet with
    | some rules => rules
    | none => []
  let newRules := fontFamilyRules.filter
    (fun rule => !(oldRules.any (fun old => old.selectorText == some rule.selectorText)))
  oldRules ++ newRules.map mkOverrideRule

/-- The text content of the built style element: the concatenation of each
rule's `cssText` followed by a newline, exactly as `createNewStyleTag`
accumulates `style.textContent`. -/
def styleTagTextContent (rules : List CSSRule) : String :=
  String.join (rules.map (fun rule => rule.cssText ++ "\n"))

/-- `updateStyleTag` of content.js: build the replacement element from the
current override element, remove the existing element from its parent, and
append the new element only when `document.head` is not null (the removal
happens before the head check, so with a null head the old element is gone and
the new one is never attached).  The batch is recorded in `builderBatches`. -/
def updateStyleTag (st : EngineState) (fontFamilyRules : List FontFamilyRule) : EngineState :=
  let newRules := createNewStyleTag fontFamilyRules st.override
  { st with
    override := if st.headAvailable then some newRules else none
    builderBatches := st.builderBatches ++ [fontFamilyRules] }

/-- `fetchCSSRulesFromUrl` of content.js: when no link element with the given
href is in the document, return no rules without touching the network;
otherwise issue the fetch (recorded in `fetchLog`) and return the parsed rules
(failures already collapsed to `[]` by its internal catch). -/
def fetchCSSRulesFromUrl (env : FetchEnv) (st : EngineState) (styleHref : String) :
    List CSSRule × EngineState :=
  if env.preloadLink styleHref then
    (env.fetchResult styleHref, { st with fetchLog := st.fetchLog ++ [styleHref] })
  else ([], st)

/-- The engine state after the CORS fallback fetched and recorded an href
(the `requestedCssFiles.add(sheet.href)` line, which runs right after the
awaited fetch, before the rule loop). -/
def recordHref (env : FetchEnv) (st : EngineState) (href : String) : EngineState :=
  { (fetchCSSRulesFromUrl env st href).2 with
    requestedCssFiles := href :: (fetchCSSRulesFromUrl env st href).2.requestedCssFiles }

/-- The CORS fallback branch of one stylesheet iteration: fetch the href,
record it, and run the rule loop over the fetched rules (a throw in that loop
is caught by the per-stylesheet catch, keeping the mutated set). -/
def processSheetFetch (env : FetchEnv) (st : EngineState) (href : String) :
    Except EngineState EngineState :=
  match collectRulesE (fetchCSSRulesFromUrl env st href).1 with
  | Except.error _ => Except.ok (recordHref env st href)
  | Except.ok ffs => Except.ok (updateStyleTag (recordHref env st href) ffs)

/-- One iteration of the stylesheet loop of `updateFontFamilyRules`.  The two
checks before the try block (`sheet.ownerNode.id` and the media blacklist) run
unprotected: a null ownerNode makes the whole pass throw (`Except.error`,
carrying the state at the throw).  Inside the try, a CORS failure of
`sheet.cssRules` takes the fallback branch, and a throwing rule object is
caught by the per-stylesheet catch, which logs and continues. -/
def processSheet (env : FetchEnv) (st : EngineState) (sheet : StyleSheet) :
    Except EngineState EngineState :=
  match sheet.ownerNode with
  | none => Except.error st
  | some owner =>
    if owner.id = extentionStyleTagId then Except.ok st
    else if sheet.mediaText ∈ sheetMediaBlacklist then Except.ok st
    else
      match sheet.directRules with
      | Except.ok cssRules =>
        match collectRulesE cssRules with
        | Except.error _ => Except.ok st
        | Except.ok ffs => Except.ok (updateStyleTag st ffs)
      | Except.error _ =>
        match sheet.href with
        | none => Except.ok st
        | some href =>
          if owner.rel ≠ some relStylesheet ∨ href ∈ st.requestedCssFiles then Except.ok st
          else processSheetFetch env st href

/-- The stylesheet loop: process the sheets in document order; an uncaught
exception aborts the remainder of the pass (second component `true`). -/
def runPassAux (env : FetchEnv) : List StyleSheet → EngineState → EngineState × Bool
  | [], st => (st, false)
  | sheet :: rest, st =>
    match processSheet env st sheet with
    | Except.ok st' => runPassAux env rest st'
    | Except.error st' => (st', true)

/-- `updateFontFamilyRules` of content.js: one scan pass over the given
stylesheets. -/
def updateFontFamilyRules (env : FetchEnv) (sheets : List StyleSheet) (st : EngineState) :
    EngineState × Bool :=
  runPassAux env sheets st

/-- A sequence of scan passes (one per qualifying mutation batch); an aborted
pass leaves the state it reached, later passes still run. -/
def runPasses (env : FetchEnv) (passes : List (List StyleSheet)) (st : EngineState) :
    EngineState :=
  passes.foldl (fun s sheets => (updateFontFamilyRules env sheets s).1) st

/-- The batch a stylesheet contributes when it is processed to completion via
direct `cssRules` access (none when the sheet is skipped, inaccessible, or a
rule throws).  This is state-independent: only the CORS fallback consults the
engine state. -/
def sheetDirectBatch (sheet : StyleSheet) : Option (List FontFamilyRule) :=
  match sheet.ownerNode with
  | none => none
  | some owner =>
    if owner.id = extentionStyleTagId then none
    else if sheet.mediaText ∈ sheetMediaBlacklist then none
    else
      match sheet.directRules with
      | Except.error _ => none
      | Except.ok cssRules =>
        match collectRulesE cssRules with
        | Except.error _ => none
        | Except.ok ffs => some ffs

/-- JavaScript whitespace test (the characters `\s` matches in the relevant
inputs). -/
def isWs (c : Char) : Bool :=
  c == ' ' || c == '\t' || c == '\n' || c == '\r' || c == '\x0b' || c == '\x0c'

/-- Consume a greedy `\s*`. -/
def skipWs (l : List Char) : List Char := l.dropWhile isWs

/-- The characters of the literal `font-family`. -/
def ffLit : List Char := fontFamilyProp.toList

/-- The characters of the literal `!important`. -/
def impLit : List Char := importantLit.toList

/-- Match `\s*(;|$)` at the given position. -/
def termAt (r : List Char) : Bool :=
  match skipWs r with
  | [] => true
  | c :: _ => c == ';'

/-- Match `(\s*!important)?\s*(;|$)` at the given position; `some b` reports
whether the optional `!important` group matched (the group is tried first, per
backtracking order). -/
def matchAfterValue (r : List Char) : Option Bool :=
  let r1 := skipWs r
  if impLit.isPrefixOf r1 && termAt (r1.drop impLit.length) then some true
  else if termAt r then some false
  else none

/-- Lazy `([^;]+?)` followed by `(\s*!important)?\s*(;|$)`: grow the capture one
character at a time (never across a `;`) until the rest of the pattern matches;
returns the capture and the `!important` flag. -/
def findValue : List Char → List Char → Option (List Char × Bool)
  | _, [] => none
  | acc, c :: rest =>
    if c == ';' then none
    else
      match matchAfterValue rest with
      | some b => some (acc ++ [c], b)
      | none => findValue (acc ++ [c]) rest

/-- Backtracking of the greedy `\s*` that precedes the lazy capture: the
longest whitespace run is tried first, then whitespace characters are given
back to the capture one at a time.  `wsRev` holds the still-consumed
whitespace, most recently consumed character first. -/
def wsAttempts : List Char → List Char → Option (List Char × Bool)
  | [], rest => findValue [] rest
  | w :: wsRev2, rest =>
    match findValue [] rest with
    | some res => some res
    | none => wsAttempts wsRev2 (w :: rest)

/-- Match `\s*([^;]+?)(\s*!important)?\s*(;|$)` after the colon: greedy `\s*`
with backtracking into the lazy capture (so a whitespace-only value matches
with a whitespace capture, as the JavaScript pattern does). -/
def matchAfterColon (r : List Char) : Option (List Char × Bool) :=
  wsAttempts (r.takeWhile isWs).reverse (r.dropWhile isWs)

/-- Try the whole pattern `font-family\s*:\s*([^;]+?)(\s*!important)?\s*(;|$)`
anchored at the given position (the `\s*` before the colon needs no
backtracking: no whitespace character is a colon). -/
def matchAt (l : List Char) : Option (List Char × Bool) :=
  if ffLit.isPrefixOf l then
    match skipWs (l.drop ffLit.length) with
    | ':' :: r2 => matchAfterColon r2
    | _ => none
  else none

/-- `fontFamilyRegex.exec`: scan start positions left to right and return the
first match. -/
def execFontFamilyRegex : List Char → Option (List Char × Bool)
  | [] => none
  | c :: rest =>
    match matchAt (c :: rest) with
    | some res => some res
    | none => execFontFamilyRegex rest

/-- JavaScript `String.prototype.trim` on a character list. -/
def trimChars (l : List Char) : List Char :=
  ((l.dropWhile isWs).reverse.dropWhile isWs).reverse

/-- One declaration of an element's inline style block (CSSStyleDeclaration
entry): property name, value, and the important flag. -/
structure Decl where
  name : String
  value : String
  important : Bool
deriving DecidableEq

/-- Serialization of one declaration, as the browser re-serializes an inline
style attribute. -/
def serializeDecl (d : Decl) : String :=
  d.name ++ ": " ++ d.value ++ (if d.important then " !important" else "") ++ ";"

/-- Serialization of a declaration block (declarations joined by single
spaces). -/
def serializeStyle : List Decl → String
  | [] => ""
  | [d] => serializeDecl d
  | d :: rest => serializeDecl d ++ " " ++ serializeStyle rest

/-- A DOM element as the Preserver sees it: `styleDecls` is none when the
element has no style attribute, otherwise the parsed declarations of the
attribute (whose text is their serialization). -/
structure Element where
  styleDecls : Option (List Decl)
deriving DecidableEq

/-- `element.getAttribute` for the style attribute. -/
def getAttributeStyle (e : Element) : Option String :=
  e.styleDecls.map serializeStyle

/-- Helper for `setPropertyFontFamily` when a font-family declaration already
exists: update the first one in place and drop every later duplicate of the
property (CSSOM keeps one declaration per property). -/
def setFontFamilyDecl (value : String) : List Decl → List Decl
  | [] => []
  | d :: rest =>
    if d.name == fontFamilyProp then
      { d with value := value, important := true } ::
        rest.filter (fun d2 => !(d2.name == fontFamilyProp))
    else d :: setFontFamilyDecl value rest

/-- `element.style.setProperty(fontFamilyProp, value, important)`: an empty
value removes the property; otherwise the first existing font-family
declaration is updated in place (later duplicates collapse away), or a new
declaration is appended when none exists. -/
def setPropertyFontFamily (ds : List Decl) (value : String) : List Decl :=
  if value == "" then ds.filter (fun d => !(d.name == fontFamilyProp))
  else if ds.any (fun d => d.name == fontFamilyProp) then setFontFamilyDecl value ds
  else ds ++ [{ name := fontFamilyProp, value := value, important := true }]

/-- `preserveCustomFonts` of content.js: skip absent elements, elements whose
style attribute is missing, empty, or mentions no font-family, and elements
whose first regex match already carries `!important`; otherwise re-apply the
captured (trimmed) font-family value with forced priority. -/
def preserveCustomFonts (element : Option Element) : Option Element :=
  match element with
  | none => none
  | some el =>
    match getAttributeStyle el with
    | none => some el
    | some inlineStyle =>
      if inlineStyle == "" || !(strIncludes inlineStyle fontFamilyProp) then some el
      else
        match execFontFamilyRegex inlineStyle.toList with
        | none => some el
        | some (g1, hasIsImportant) =>
          if hasIsImportant then some el
          else
            let currentFontFamily := String.mk (trimChars g1)
            some { el with styleDecls :=
              (el.styleDecls.map (fun ds => setPropertyFontFamily ds currentFontFamily)) }

/-- `preserveCustomFonts` applied to one element of `querySelectorAll` (which
never hands over an absent element). -/
def preserveElem (e : Element) : Element :=
  match preserveCustomFonts (some e) with
  | some e' => e'
  | none => e

/-- A DOM node as inspected by `styleSheetsChanged`: `id`, `nodeName`, the link
attributes `rel` and `as` (none on non-link nodes), the resolved `href`, and
the text content. -/
structure DomNode where
  id : String
  nodeName : String
  rel : Option String
  asAttr : Option String
  href : String
  textContent : String
deriving DecidableEq

/-- The body of the addedNodes loop in `styleSheetsChanged`, folding the
`(stylesheetChanged, lastStyleSheets)` pair over one node. -/
def styleSheetsChangedNode (acc : Bool × List String) (node : DomNode) : Bool × List String :=
  if node.id = extentionStyleTagId then acc
  else
    let isStylesheet := node.nodeName = nodeNameLink ∧
      (node.rel = some relStylesheet ∨ node.asAttr = some asStyleVal)
    let isStyleNode := node.nodeName = nodeNameStyle
    if ¬ isStylesheet ∧ ¬ isStyleNode then acc
    else
      let newStylesheetIdentifier := if isStylesheet then node.href else node.textContent
      if newStylesheetIdentifier ∈ acc.2 then acc
      else (true, newStylesheetIdentifier :: acc.2)

/-- `styleSheetsChanged` of content.js: fold over every added node of every
mutation record, returning the changed flag together with the updated
`lastStyleSheets` set. -/
def styleSheetsChanged (mutations : List (List DomNode)) (lastStyleSheets : List String) :
    Bool × List String :=
  mutations.foldl (fun acc m => m.foldl styleSheetsChangedNode acc) (false, lastStyleSheets)

/-- The page-level state the observer callback acts on. -/
structure PageState where
  lastStyleSheets : List String
  engine : EngineState
  elements : List Element
  runCount : Nat
deriving DecidableEq

/-- The MutationObserver callback: when `styleSheetsChanged` reports a change,
run a scan pass and bump `runCount`; the Preserver pass over every element runs
afterwards on every invocation, except that an uncaught exception escaping
`updateFontFamilyRules` skips both the counter bump and the Preserver pass.
Returns the new page state together with (pipeline ran, preserver ran). -/
def observerCallback (env : FetchEnv) (sheets : List StyleSheet)
    (mutations : List (List DomNode)) (pg : PageState) : PageState × Bool × Bool :=
  let changed := styleSheetsChanged mutations pg.lastStyleSheets
  if changed.1 then
    let pass := updateFontFamilyRules env sheets pg.engine
    if pass.2 then
      ({ lastStyleSheets := changed.2, engine := pass.1, elements := pg.elements
       , runCount := pg.runCount }, true, false)
    else
      ({ lastStyleSheets := changed.2, engine := pass.1
       , elements := pg.elements.map preserveElem
       , runCount := pg.runCount + 1 }, true, true)
  else
    ({ lastStyleSheets := changed.2, engine := pg.engine
     , elements := pg.elements.map preserveElem
     , runCount := pg.runCount }, false, true)

/-- The selector texts of the rules of a style sheet, in order (rules without
selector text omitted). -/
def selTextsOf (rules : List CSSRule) : List String :=
  rules.filterMap (fun rule => rule.selectorText)

/-- The direct rule list of a sheet, defaulting to `[]` on a CORS error. -/
def sheetRulesOr (sheet : StyleSheet) : List CSSRule :=
  match sheet.directRules with
  | Except.ok rules => rules
  | Except.error _ => []

/-- The engine state an `Except`-valued step leaves behind (an uncaught
exception also leaves its state: the globals it mutated persist). -/
def resState : Except EngineState EngineState → EngineState
  | Except.ok st => st
  | Except.error st => st

/-- State evolution facts preserved by every step of a scan pass: the head
flag is constant, `requestedCssFiles` only grows, an override rule list only
grows by appending while the head is available, and an absent override stays
absent while the head is unavailable. -/
def Mono (st st' : EngineState) : Prop :=
  st'.headAvailable = st.headAvailable ∧
  (∀ x ∈ st.requestedCssFiles, x ∈ st'.requestedCssFiles) ∧
  (∀ L, st.headAvailable = true → st.override = some L → ∃ L2, st'.override = some (L ++ L2)) ∧
  (st.headAvailable = false → st.override = none → st'.override = none)

/-- Equality of the engine state up to the observation logs. -/
def projEq (st st' : EngineState) : Prop :=
  st.requestedCssFiles = st'.requestedCssFiles ∧
  st.override = st'.override ∧
  st.headAvailable = st'.headAvailable

/-- What a completed pass ending in `st1` guarantees about one of its sheets:
the sheet's owner node exists; when the sheet completes via direct access, all
its collected selectors are already covered by the final override rules (or
the override is absent when the head is unavailable); and when the sheet took
the CORS fallback path its href ended up in `requestedCssFiles`. -/
def SheetFact (st1 : EngineState) (sheet : StyleSheet) : Prop :=
  sheet.ownerNode ≠ none ∧
  (∀ ffs, sheetDirectBatch sheet = some ffs →
    (st1.headAvailable = true → ∃ L, st1.override = some L ∧
      ∀ r ∈ ffs, ∃ o ∈ L, o.selectorText = some r.selectorText) ∧
    (st1.headAvailable = false → st1.override = none)) ∧
  (∀ o h, sheet.ownerNode = some o → o.id ≠ extentionStyleTagId →
    sheet.mediaText ∉ sheetMediaBlacklist → sheet.directRules = Except.error () →
    sheet.href = some h → o.rel = some relStylesheet → h ∈ st1.requestedCssFiles)

/-- The identifier `styleSheetsChanged` computes for an added node: the href
for stylesheet links, the text content otherwise. -/
def nodeIdentifier (node : DomNode) : String :=
  if node.nodeName = nodeNameLink ∧ (node.rel = some relStylesheet ∨ node.asAttr = some asStyleVal)
  then node.href else node.textContent

/-- The condition under which `styleSheetsChanged` marks an added node as a
genuinely new stylesheet: not the override element's own node, a stylesheet or
preload-as-style link or a style element, whose identifier (href for links,
text content for style elements) is not yet known. -/
def qualifiesNew (known : List String) (node : DomNode) : Prop :=
  node.id ≠ extentionStyleTagId ∧
  ((node.nodeName = nodeNameLink ∧ (node.rel = some relStylesheet ∨ node.asAttr = some asStyleVal))
    ∨ node.nodeName = nodeNameStyle) ∧
  nodeIdentifier node ∉ known

/- Concrete fixtures for witnesses and counterexamples. -/

/-- A fetch environment in which no preload link is ever found. -/
def envNone : FetchEnv := { preloadLink := fun _ => false, fetchResult := fun _ => [] }

/-- A concrete collected pair: selector `.a`, font `Foo`. -/
def exFfFoo : FontFamilyRule := { selectorText := ".a", fontFamily := "Foo" }

/-- A concrete collected pair with the same selector as `exFfFoo` but font
`Bar`. -/
def exFfBar : FontFamilyRule := { selectorText := ".a", fontFamily := "Bar" }

/-- A concrete collected pair: selector `.z`, font `Baz`. -/
def exFfBaz : FontFamilyRule := { selectorText := ".z", fontFamily := "Baz" }

/-- A page rule `.a { font-family: Foo; }`. -/
def exRuleFoo : CSSRule :=
  { selectorText := some ".a", fontFamily := some "Foo"
  , cssText := ".a \x7b font-family: Foo; \x7d", accessThrows := false }

/-- A page rule `.a { font-family: Bar; }` (same selector as `exRuleFoo`). -/
def exRuleBar : CSSRule :=
  { selectorText := some ".a", fontFamily := some "Bar"
  , cssText := ".a \x7b font-family: Bar; \x7d", accessThrows := false }

/-- A page rule `.z { font-family: Baz; }`. -/
def exRuleBaz : CSSRule :=
  { selectorText := some ".z", fontFamily := some "Baz"
  , cssText := ".z \x7b font-family: Baz; \x7d", accessThrows := false }

/-- A pathological rule whose property access throws. -/
def exRuleThrow : CSSRule :=
  { selectorText := none, fontFamily := none, cssText := "", accessThrows := true }

/-- An ordinary owner node (no id, no rel). -/
def exOwner : OwnerNode := { id := "", rel := none }

/-- The owner node of a stylesheet link. -/
def exCorsOwner : OwnerNode := { id := "", rel := some relStylesheet }

/-- A cross-origin stylesheet URL. -/
def exHrefA : String := "https://cdn.example/a.css"

/-- A same-origin sheet holding `exRuleFoo`. -/
def exSheetFoo : StyleSheet :=
  { ownerNode := some exOwner, mediaText := "", href := none
  , directRules := Except.ok [exRuleFoo] }

/-- A same-origin sheet holding `exRuleBaz`. -/
def exSheetBaz : StyleSheet :=
  { ownerNode := some exOwner, mediaText := "", href := none
  , directRules := Except.ok [exRuleBaz] }

/-- A same-origin sheet holding two rules with the same selector text. -/
def exSheetDup : StyleSheet :=
  { ownerNode := some exOwner, mediaText := "", href := none
  , directRules := Except.ok [exRuleFoo, exRuleBar] }

/-- A sheet whose owner node is null: reading `ownerNode.id` throws outside
the try block. -/
def exSheetBad : StyleSheet :=
  { ownerNode := none, mediaText := "", href := none, directRules := Except.ok [] }

/-- A sheet one of whose rules throws during the rule loop (inside the try
block). -/
def exSheetThrow : StyleSheet :=
  { ownerNode := some exOwner, mediaText := "", href := none
  , directRules := Except.ok [exRuleFoo, exRuleThrow] }

/-- A CORS-restricted linked stylesheet with href `exHrefA`. -/
def exCorsSheet : StyleSheet :=
  { ownerNode := some exCorsOwner, mediaText := "", href := some exHrefA
  , directRules := Except.error () }

/-- A fetch environment in which every href has a preload link and fetches
parse to `[exRuleFoo]`. -/
def envFetchFoo : FetchEnv := { preloadLink := fun _ => true, fetchResult := fun _ => [exRuleFoo] }

/-- The initial engine state: nothing requested, no override element, head
present. -/
def st0 : EngineState :=
  { requestedCssFiles := [], override := none, headAvailable := true
  , builderBatches := [], fetchLog := [] }

/-- An engine state with an existing override element but no document head. -/
def exStHeadless : EngineState :=
  { requestedCssFiles := [], override := some [mkOverrideRule exFfFoo], headAvailable := false
  , builderBatches := [], fetchLog := [] }

/-- An engine state as after a first pass that collected `exFfFoo`. -/
def exStPass1 : EngineState :=
  { requestedCssFiles := [], override := some [mkOverrideRule exFfFoo], headAvailable := true
  , builderBatches := [], fetchLog := [] }

/-- A style node carrying the override element's own id (with unseen text
content). -/
def exNodeExt : DomNode :=
  { id := extentionStyleTagId, nodeName := nodeNameStyle, rel := none, asAttr := none
  , href := "", textContent := "p \x7b color: red \x7d" }

/-- An added div node, not stylesheet-relevant. -/
def exNodeDiv : DomNode :=
  { id := "", nodeName := "DIV", rel := none, asAttr := none, href := "", textContent := "" }

/-- A freshly added stylesheet link node with unseen href. -/
def exNodeLink : DomNode :=
  { id := "", nodeName := nodeNameLink, rel := some relStylesheet, asAttr := none
  , href := exHrefA, textContent := "" }

/-- The initial page state (no known stylesheets, initial engine state, no
elements). -/
def pg0 : PageState :=
  { lastStyleSheets := [], engine := st0, elements := [], runCount := 0 }

/-- The font value used in the Preserver witness. -/
def exFontVal : String := "Arial"

/-- The serialized text contributed by the declarations standing in front of a
later declaration in a block: each one's serialization followed by the joining
space. -/
def styleTextBefore : List Decl → List Char
  | [] => []
  | d :: rest => (serializeDecl d).toList ++ ' ' :: styleTextBefore rest

/-- A declaration unrelated to font-family, standing before it in the
Preserver witness. -/
def exPreColor : Decl := { name := "color", value := "red", important := false }

/-- The name of a custom property whose text embeds the literal
`font-family`. -/
def customFfName : String := "--font-family"

/-- An inline style block declaring the custom property `--font-family: Arial`
followed by a genuine `font-family: Georgia` without `!important`. -/
def exCustomPropDecls : List Decl :=
  [ { name := customFfName, value := exFontVal, important := false }
  , { name := fontFamilyProp, value := "Georgia", important := false } ]

/-- The declarations after the Preserver runs once on `exCustomPropDecls`: the
first regex match starts inside `--font-family`, so the custom property's value
is the one re-applied to the genuine font-family declaration. -/
def exCustomPropOnce : List Decl :=
  [ { name := customFfName, value := exFontVal, important := false }
  , { name := fontFamilyProp, value := exFontVal, important := true } ]

/- Theorems. -/

lemma selTextsOf_map_mkOverrideRule (l : List FontFamilyRule) :
    selTextsOf (l.map mkOverrideRule) = l.map (fun r => r.selectorText) := by
  induction l with
  | nil => rfl
  | cons a t ih => simp [selTextsOf, List.filterMap_cons, mkOverrideRule] at ih ⊢; exact ih

lemma keptRule_not_in_old {fontFamilyRules : List FontFamilyRule} {oldRules : List CSSRule}
    {r : FontFamilyRule}
    (hr : r ∈ fontFamilyRules.filter
      (fun rule => !(oldRules.any (fun old => old.selectorText == some rule.selectorText)))) :
    ∀ o ∈ oldRules, o.selectorText ≠ some r.selectorText := by
  intro o ho
  have hp := (List.mem_filter.mp hr).2
  rw [Bool.not_eq_true', List.any_eq_false] at hp
  have := hp o ho
  simpa using this

/-- C1 (counterexample): a single scan pass over one stylesheet that holds two
rules with the same selector text `.a` hands the Builder a batch containing
two entries with that selector, and the resulting Override Stylesheet contains
two rule entries with the same selector text — refuting the claim for batches
with internal duplicates. -/
theorem c1_counterexample :
    (updateFontFamilyRules envNone [exSheetDup] st0).1.builderBatches = [[exFfFoo, exFfBar]] ∧
    ¬ (selTextsOf ((updateFontFamilyRules envNone [exSheetDup] st0).1.override.getD [])).Nodup :=
  ⟨by decide, by decide⟩

/-- C1 (amended): after a Builder update, provided the baseline entries have
pairwise-distinct selector texts and the batch's entries have pairwise-distinct
selector texts, the resulting Override Stylesheet never contains two rule
entries with the same selector text (the Builder dedups new rules against the
baseline only, not within the batch). -/
theorem c1_amended (fontFamilyRules : List FontFamilyRule) (oldRules : List CSSRule)
    (hOld : (selTextsOf oldRules).Nodup)
    (hNew : (fontFamilyRules.map (fun r => r.selectorText)).Nodup) :
    (selTextsOf (createNewStyleTag fontFamilyRules (some oldRules))).Nodup := by
  unfold createNewStyleTag
  rw [selTextsOf, List.filterMap_append, List.nodup_append]
  refine ⟨hOld, ?_, ?_⟩
  · rw [show (List.filterMap (fun rule => rule.selectorText)
      ((fontFamilyRules.filter _).map mkOverrideRule)) = selTextsOf _ from rfl]
    rw [selTextsOf_map_mkOverrideRule]
    exact hNew.sublist (List.Sublist.map _ (List.filter_sublist _))
  · intro a ha hb
    rw [show (List.filterMap (fun rule => rule.selectorText)
      ((fontFamilyRules.filter _).map mkOverrideRule)) = selTextsOf _ from rfl,
      selTextsOf_map_mkOverrideRule] at hb
    obtain ⟨r, hr, hra⟩ := List.mem_map.mp hb
    obtain ⟨o, ho, hoa⟩ := List.mem_filterMap.mp ha
    exact keptRule_not_in_old hr o ho (by rw [hoa, hra])

/-- C1 (witness): the amended statement applied to a concrete baseline with
selector `.z` and a concrete singleton batch with selector `.a`. -/
theorem c1_amended_witness :
    (selTextsOf [mkOverrideRule exFfBaz]).Nodup ∧
    (([exFfFoo].map (fun r => r.selectorText)).Nodup) ∧
    (selTextsOf (createNewStyleTag [exFfFoo] (some [mkOverrideRule exFfBaz]))).Nodup :=
  ⟨by decide, by decide, c1_amended [exFfFoo] [mkOverrideRule exFfBaz] (by decide) (by decide)⟩

/-- C3: a Builder update with an existing baseline attaches exactly the rules
of `createNewStyleTag`; the baseline is preserved verbatim as a prefix, every
appended rule's selector differs from every baseline selector, and a batch
rule whose selector already has a baseline entry is dropped (its synthesized
rule does not occur in the appended part). -/
theorem c3_theorem (st : EngineState) (oldRules : List CSSRule) (batch : List FontFamilyRule)
    (hov : st.override = some oldRules) (hhead : st.headAvailable = true) :
    (updateStyleTag st batch).override = some (createNewStyleTag batch (some oldRules)) ∧
    (∃ newPart, createNewStyleTag batch (some oldRules) = oldRules ++ newPart) ∧
    (∀ r ∈ (createNewStyleTag batch (some oldRules)).drop oldRules.length,
      ∀ o ∈ oldRules, o.selectorText ≠ r.selectorText) ∧
    (∀ b ∈ batch, (∃ o ∈ oldRules, o.selectorText = some b.selectorText) →
      mkOverrideRule b ∉ (createNewStyleTag batch (some oldRules)).drop oldRules.length) := by
  have hdrop : (createNewStyleTag batch (some oldRules)).drop oldRules.length
      = (batch.filter
        (fun rule => !(oldRules.any (fun old => old.selectorText == some rule.selectorText)))).map
        mkOverrideRule := by
    unfold createNewStyleTag
    exact List.drop_left _ _
  refine ⟨by simp [updateStyleTag, hov, hhead], ⟨_, rfl⟩, ?_, ?_⟩
  · intro r hr o ho
    rw [hdrop] at hr
    obtain ⟨b, hb, rfl⟩ := List.mem_map.mp hr
    have := keptRule_not_in_old hb o ho
    simpa [mkOverrideRule] using this
  · rintro b hb ⟨o, ho, hsel⟩ hmem
    rw [hdrop] at hmem
    obtain ⟨b', hb', heq⟩ := List.mem_map.mp hmem
    have hsel' : b'.selectorText = b.selectorText := by
      have := congrArg (fun r => r.selectorText) heq
      simpa [mkOverrideRule] using this
    exact keptRule_not_in_old hb' o ho (by rw [hsel, hsel'])

/-- C3 (witness): with the pass-1 baseline rule for `.a`/`Foo` and the pass-2
batch collecting `.a`/`Bar`, the rebuilt Override Stylesheet is exactly the
pass-1 baseline: the Bar-derived rule is dropped and never overwrites. -/
theorem c3_witness :
    exStPass1.override = some [mkOverrideRule exFfFoo] ∧
    exStPass1.headAvailable = true ∧
    (updateStyleTag exStPass1 [exFfBar]).override
      = some (createNewStyleTag [exFfBar] (some [mkOverrideRule exFfFoo])) ∧
    createNewStyleTag [exFfBar] (some [mkOverrideRule exFfFoo]) = [mkOverrideRule exFfFoo] :=
  ⟨rfl, rfl, (c3_theorem exStPass1 [mkOverrideRule exFfFoo] [exFfBar] rfl rfl).1, by decide⟩

/-- C5 (counterexample): with an existing Override Stylesheet and an
unavailable document head, a Builder update leaves the document with no
Override Stylesheet at all — the existing element is removed before the head
check, refuting the claim that it is still attached after the aborted
update. -/
theorem c5_counterexample :
    exStHeadless.override = some [mkOverrideRule exFfFoo] ∧
    (updateStyleTag exStHeadless []).override = none :=
  ⟨rfl, rfl⟩

/-- C5 (amended): when the document head is unavailable at output time, the
Builder update completes without raising (it is a total function) and the
append is skipped, but the override element is absent afterwards (the removal
already happened); the requested-files set and the fetch log are untouched. -/
theorem c5_amended (st : EngineState) (batch : List FontFamilyRule)
    (h : st.headAvailable = false) :
    (updateStyleTag st batch).override = none ∧
    (updateStyleTag st batch).requestedCssFiles = st.requestedCssFiles ∧
    (updateStyleTag st batch).fetchLog = st.fetchLog := by
  simp [updateStyleTag, h]

/-- C5 (witness): the amended statement applied to the concrete headless
state. -/
theorem c5_amended_witness :
    exStHeadless.headAvailable = false ∧
    ((updateStyleTag exStHeadless []).override = none ∧
      (updateStyleTag exStHeadless []).requestedCssFiles = exStHeadless.requestedCssFiles ∧
      (updateStyleTag exStHeadless []).fetchLog = exStHeadless.fetchLog) :=
  ⟨rfl, c5_amended exStHeadless [] rfl⟩

lemma collectRulesE_ok (rules : List CSSRule) (h : ∀ r ∈ rules, r.accessThrows = false) :
    collectRulesE rules = Except.ok (collectRules rules) := by
  induction rules with
  | nil => rfl
  | cons r t ih =>
    have hr := h r (by simp)
    have ht := ih (fun x hx => h x (by simp [hx]))
    rw [collectRulesE, if_neg (by simp [hr]), ht]
    cases hrc : ruleCandidate r <;> simp [hrc, collectRules, List.filterMap_cons]

lemma processSheet_of_directBatch (env : FetchEnv) (st : EngineState) {sheet : StyleSheet}
    {ffs : List FontFamilyRule} (h : sheetDirectBatch sheet = some ffs) :
    processSheet env st sheet = Except.ok (updateStyleTag st ffs) := by
  cases how : sheet.ownerNode with
  | none => simp only [sheetDirectBatch, how] at h; exact Option.noConfusion h
  | some owner =>
    simp only [sheetDirectBatch, how] at h
    by_cases h1 : owner.id = extentionStyleTagId
    · simp only [if_pos h1] at h; exact Option.noConfusion h
    · simp only [if_neg h1] at h
      by_cases h2 : sheet.mediaText ∈ sheetMediaBlacklist
      · simp only [if_pos h2] at h; exact Option.noConfusion h
      · simp only [if_neg h2] at h
        cases hd : sheet.directRules with
        | error e => simp only [hd] at h; exact Option.noConfusion h
        | ok rules =>
          simp only [hd] at h
          cases hc : collectRulesE rules with
          | error e => simp only [hc] at h; exact Option.noConfusion h
          | ok ffs' =>
            simp only [hc, Option.some.injEq] at h
            subst h
            simp [processSheet, how, h1, h2, hd, hc]

lemma processSheetFetch_ok_exists (env : FetchEnv) (st : EngineState) (href : String) :
    ∃ st', processSheetFetch env st href = Except.ok st' := by
  unfold processSheetFetch
  cases hc : collectRulesE (fetchCSSRulesFromUrl env st href).1 with
  | error e => exact ⟨_, rfl⟩
  | ok ffs => exact ⟨_, rfl⟩

lemma processSheet_ok_exists (env : FetchEnv) (st : EngineState) {sheet : StyleSheet}
    (h : sheet.ownerNode ≠ none) :
    ∃ st', processSheet env st sheet = Except.ok st' := by
  cases how : sheet.ownerNode with
  | none => exact absurd how h
  | some owner =>
    by_cases h1 : owner.id = extentionStyleTagId
    · exact ⟨st, by simp [processSheet, how, h1]⟩
    · by_cases h2 : sheet.mediaText ∈ sheetMediaBlacklist
      · exact ⟨st, by simp [processSheet, how, h1, h2]⟩
      · cases hd : sheet.directRules with
        | ok rules =>
          cases hc : collectRulesE rules with
          | error e => exact ⟨st, by simp [processSheet, how, h1, h2, hd, hc]⟩
          | ok ffs => exact ⟨updateStyleTag st ffs, by simp [processSheet, how, h1, h2, hd, hc]⟩
        | error e =>
          cases hh : sheet.href with
          | none => exact ⟨st, by simp [processSheet, how, h1, h2, hd, hh]⟩
          | some href =>
            by_cases h3 : owner.rel ≠ some relStylesheet ∨ href ∈ st.requestedCssFiles
            · exact ⟨st, by simp [processSheet, how, h1, h2, hd, hh, h3]⟩
            · obtain ⟨st', hst'⟩ := processSheetFetch_ok_exists env st href
              refine ⟨st', ?_⟩
              simp only [processSheet, how, if_neg h1, if_neg h2, hd, hh, if_neg h3]
              exact hst'

lemma runPass_no_abort (env : FetchEnv) (sheets : List StyleSheet)
    (h : ∀ s ∈ sheets, s.ownerNode ≠ none) :
    ∀ st, (runPassAux env sheets st).2 = false := by
  induction sheets with
  | nil => intro st; rfl
  | cons s t ih =>
    intro st
    obtain ⟨st', hst'⟩ := processSheet_ok_exists env st (h s (by simp))
    rw [runPassAux, hst']
    exact ih (fun x hx => h x (by simp [hx])) st'

/-- C2 (counterexample): a pass over two stylesheets each contributing one
rule performs two Builder updates, one per stylesheet, each receiving only
that stylesheet's rules — refuting the claim that the Builder update happens
exactly once per completed pass with the concatenated batch. -/
theorem c2_counterexample :
    (updateFontFamilyRules envNone [exSheetFoo, exSheetBaz] st0).1.builderBatches.length = 2 ∧
    (updateFontFamilyRules envNone [exSheetFoo, exSheetBaz] st0).1.builderBatches
      ≠ [[exFfFoo, exFfBaz]] :=
  ⟨by decide, by decide⟩

/-- C2 (amended): in a pass in which every stylesheet completes processing via
direct rule access, the Builder's stylesheet update is performed once per
stylesheet — the recorded batches extend by exactly one batch per stylesheet,
namely that stylesheet's own emitted rules — and the pass does not abort. -/
theorem c2_amended (env : FetchEnv) (sheets : List StyleSheet) (st : EngineState)
    (h : ∀ sheet ∈ sheets, (sheetDirectBatch sheet).isSome) :
    (updateFontFamilyRules env sheets st).2 = false ∧
    (updateFontFamilyRules env sheets st).1.builderBatches
      = st.builderBatches ++ sheets.filterMap sheetDirectBatch ∧
    (sheets.filterMap sheetDirectBatch).length = sheets.length := by
  induction sheets generalizing st with
  | nil => simp [updateFontFamilyRules, runPassAux]
  | cons s t ih =>
    obtain ⟨ffs, hffs⟩ := Option.isSome_iff_exists.mp (h s (by simp))
    have hstep := processSheet_of_directBatch env st hffs
    have ht := ih (updateStyleTag st ffs) (fun x hx => h x (List.mem_cons_of_mem s hx))
    unfold updateFontFamilyRules at ht ⊢
    rw [runPassAux, hstep]
    refine ⟨ht.1, ?_, ?_⟩
    · rw [ht.2.1, List.filterMap_cons, hffs]
      simp [updateStyleTag]
    · rw [List.filterMap_cons, hffs]
      simp [ht.2.2]

/-- C2 (witness): the amended statement applied to the concrete two-sheet
pass. -/
theorem c2_amended_witness :
    (∀ sheet ∈ [exSheetFoo, exSheetBaz], (sheetDirectBatch sheet).isSome) ∧
    ((updateFontFamilyRules envNone [exSheetFoo, exSheetBaz] st0).2 = false ∧
      (updateFontFamilyRules envNone [exSheetFoo, exSheetBaz] st0).1.builderBatches
        = st0.builderBatches ++ [exSheetFoo, exSheetBaz].filterMap sheetDirectBatch ∧
      ([exSheetFoo, exSheetBaz].filterMap sheetDirectBatch).length
        = [exSheetFoo, exSheetBaz].length) :=
  ⟨by decide, c2_amended envNone [exSheetFoo, exSheetBaz] st0 (by decide)⟩

/-- C6 (counterexample): a stylesheet whose owner node is null makes the
`sheet.ownerNode.id` identity check throw outside the per-stylesheet try
block: the pass aborts and the following stylesheet is never processed (no
Builder batch is recorded), although processing that stylesheet alone records
one — refuting the claim that exceptions in the identity check are caught at
the stylesheet boundary. -/
theorem c6_counterexample :
    (updateFontFamilyRules envNone [exSheetBad, exSheetBaz] st0).2 = true ∧
    (updateFontFamilyRules envNone [exSheetBad, exSheetBaz] st0).1.builderBatches = [] ∧
    (updateFontFamilyRules envNone [exSheetBaz] st0).1.builderBatches = [[exFfBaz]] :=
  ⟨rfl, rfl, by decide⟩

/-- C6 (amended): exceptions raised inside the per-stylesheet try block are
caught at the stylesheet boundary and the loop continues: a pass over sheets
that all have owner nodes never aborts, and a sheet whose rule loop throws
(after the unprotected identity and media checks passed and rules were read
directly) is skipped transparently, the pass continuing with the remaining
sheets from an unchanged state. -/
theorem c6_amended (env : FetchEnv) (st : EngineState) :
    (∀ sheets : List StyleSheet, (∀ s ∈ sheets, s.ownerNode ≠ none) →
      (updateFontFamilyRules env sheets st).2 = false) ∧
    (∀ (sheet : StyleSheet) (rest : List StyleSheet) (owner : OwnerNode) (rules : List CSSRule),
      sheet.ownerNode = some owner → owner.id ≠ extentionStyleTagId →
      sheet.mediaText ∉ sheetMediaBlacklist → sheet.directRules = Except.ok rules →
      collectRulesE rules = Except.error () →
      updateFontFamilyRules env (sheet :: rest) st = updateFontFamilyRules env rest st) := by
  constructor
  · intro sheets h
    exact runPass_no_abort env sheets h st
  · intro sheet rest owner rules how hid hmedia hdr hcoll
    have hstep : processSheet env st sheet = Except.ok st := by
      simp [processSheet, how, hid, hmedia, hdr, hcoll]
    unfold updateFontFamilyRules
    rw [runPassAux, hstep]

/-- C6 (witness): the amended statement applied to a pass whose first sheet
contains a throwing rule object: the pass does not abort and behaves as the
pass over the remaining sheet. -/
theorem c6_amended_witness :
    (updateFontFamilyRules envNone [exSheetThrow, exSheetBaz] st0).2 = false ∧
    updateFontFamilyRules envNone (exSheetThrow :: [exSheetBaz]) st0
      = updateFontFamilyRules envNone [exSheetBaz] st0 :=
  ⟨(c6_amended envNone st0).1 [exSheetThrow, exSheetBaz] (by decide),
    (c6_amended envNone st0).2 exSheetThrow [exSheetBaz] exOwner [exRuleFoo, exRuleThrow]
      rfl (by decide) (by decide) rfl rfl⟩

lemma updateStyleTag_requested (st : EngineState) (ffs : List FontFamilyRule) :
    (updateStyleTag st ffs).requestedCssFiles = st.requestedCssFiles := by
  simp [updateStyleTag]

lemma updateStyleTag_fetchLog (st : EngineState) (ffs : List FontFamilyRule) :
    (updateStyleTag st ffs).fetchLog = st.fetchLog := by
  simp [updateStyleTag]

lemma updateStyleTag_head (st : EngineState) (ffs : List FontFamilyRule) :
    (updateStyleTag st ffs).headAvailable = st.headAvailable := by
  simp [updateStyleTag]

lemma updateStyleTag_override (st : EngineState) (ffs : List FontFamilyRule) :
    (updateStyleTag st ffs).override
      = if st.headAvailable then some (createNewStyleTag ffs st.override) else none := by
  simp [updateStyleTag]

lemma updateStyleTag_batches (st : EngineState) (ffs : List FontFamilyRule) :
    (updateStyleTag st ffs).builderBatches = st.builderBatches ++ [ffs] := by
  simp [updateStyleTag]

lemma recordHref_requested (env : FetchEnv) (st : EngineState) (href : String) :
    (recordHref env st href).requestedCssFiles = href :: st.requestedCssFiles := by
  by_cases hc : env.preloadLink href <;> simp [recordHref, fetchCSSRulesFromUrl, hc]

lemma recordHref_override (env : FetchEnv) (st : EngineState) (href : String) :
    (recordHref env st href).override = st.override := by
  by_cases hc : env.preloadLink href <;> simp [recordHref, fetchCSSRulesFromUrl, hc]

lemma recordHref_head (env : FetchEnv) (st : EngineState) (href : String) :
    (recordHref env st href).headAvailable = st.headAvailable := by
  by_cases hc : env.preloadLink href <;> simp [recordHref, fetchCSSRulesFromUrl, hc]

lemma recordHref_fetchLog (env : FetchEnv) (st : EngineState) (href : String) :
    (recordHref env st href).fetchLog
      = if env.preloadLink href then st.fetchLog ++ [href] else st.fetchLog := by
  by_cases hc : env.preloadLink href <;> simp [recordHref, fetchCSSRulesFromUrl, hc]

lemma processSheet_cases (env : FetchEnv) (st : EngineState) (sheet : StyleSheet) :
    processSheet env st sheet = Except.error st ∨
    processSheet env st sheet = Except.ok st ∨
    (∃ ffs, sheetDirectBatch sheet = some ffs ∧
      processSheet env st sheet = Except.ok (updateStyleTag st ffs)) ∨
    (∃ href, sheet.href = some href ∧ href ∉ st.requestedCssFiles ∧
      (processSheet env st sheet = Except.ok (recordHref env st href) ∨
        ∃ ffs, processSheet env st sheet
          = Except.ok (updateStyleTag (recordHref env st href) ffs))) := by
  cases how : sheet.ownerNode with
  | none => exact Or.inl (by simp [processSheet, how])
  | some owner =>
    by_cases h1 : owner.id = extentionStyleTagId
    · exact Or.inr (Or.inl (by simp [processSheet, how, h1]))
    · by_cases h2 : sheet.mediaText ∈ sheetMediaBlacklist
      · exact Or.inr (Or.inl (by simp [processSheet, how, h1, h2]))
      · cases hd : sheet.directRules with
        | ok rules =>
          cases hc : collectRulesE rules with
          | error e => exact Or.inr (Or.inl (by simp [processSheet, how, h1, h2, hd, hc]))
          | ok ffs =>
            refine Or.inr (Or.inr (Or.inl ⟨ffs, ?_, ?_⟩))
            · simp [sheetDirectBatch, how, h1, h2, hd, hc]
            · simp [processSheet, how, h1, h2, hd, hc]
        | error e =>
          cases hh : sheet.href with
          | none => exact Or.inr (Or.inl (by simp [processSheet, how, h1, h2, hd, hh]))
          | some href =>
            by_cases h3 : owner.rel ≠ some relStylesheet ∨ href ∈ st.requestedCssFiles
            · exact Or.inr (Or.inl (by simp [processSheet, how, h1, h2, hd, hh, h3]))
            · have hmem : href ∉ st.requestedCssFiles := fun hx => h3 (Or.inr hx)
              refine Or.inr (Or.inr (Or.inr ⟨href, rfl, hmem, ?_⟩))
              have hps : processSheet env st sheet = processSheetFetch env st href := by
                simp only [processSheet, how, if_neg h1, if_neg h2, hd, hh, if_neg h3]
              cases hc : collectRulesE (fetchCSSRulesFromUrl env st href).1 with
              | error e2 =>
                exact Or.inl (by rw [hps]; simp only [processSheetFetch, hc])
              | ok ffs =>
                exact Or.inr ⟨ffs, by rw [hps]; simp only [processSheetFetch, hc]⟩

lemma mono_refl (st : EngineState) : Mono st st :=
  ⟨rfl, fun _ hx => hx, fun L _ hL => ⟨[], by simp [hL]⟩, fun _ h => h⟩

lemma mono_trans {a b c : EngineState} (h1 : Mono a b) (h2 : Mono b c) : Mono a c := by
  obtain ⟨hh1, hr1, ho1, hn1⟩ := h1
  obtain ⟨hh2, hr2, ho2, hn2⟩ := h2
  refine ⟨hh2.trans hh1, fun x hx => hr2 x (hr1 x hx), ?_, ?_⟩
  · intro L hhead hov
    obtain ⟨L2, hL2⟩ := ho1 L hhead hov
    obtain ⟨L3, hL3⟩ := ho2 (L ++ L2) (hh1.trans hhead) hL2
    exact ⟨L2 ++ L3, by rw [hL3, List.append_assoc]⟩
  · intro hhead hov
    exact hn2 (hh1.trans hhead) (hn1 hhead hov)

lemma mono_updateStyleTag (st : EngineState) (ffs : List FontFamilyRule) :
    Mono st (updateStyleTag st ffs) := by
  refine ⟨updateStyleTag_head st ffs, ?_, ?_, ?_⟩
  · intro x hx; rw [updateStyleTag_requested]; exact hx
  · intro L hhead hov
    rw [updateStyleTag_override, hhead, if_pos rfl, hov]
    exact ⟨_, rfl⟩
  · intro hhead _
    rw [updateStyleTag_override, hhead]
    simp

lemma mono_recordHref (env : FetchEnv) (st : EngineState) (href : String) :
    Mono st (recordHref env st href) := by
  refine ⟨recordHref_head env st href, ?_, ?_, ?_⟩
  · intro x hx; rw [recordHref_requested]; exact List.mem_cons_of_mem _ hx
  · intro L _ hov
    rw [recordHref_override, hov]
    exact ⟨[], by simp⟩
  · intro _ hov
    rw [recordHref_override, hov]

lemma mono_processSheet (env : FetchEnv) (st : EngineState) (sheet : StyleSheet) :
    Mono st (resState (processSheet env st sheet)) := by
  rcases processSheet_cases env st sheet with h | h | ⟨ffs, _, h⟩ | ⟨href, _, _, h | ⟨ffs, h⟩⟩
  · rw [h]; exact mono_refl st
  · rw [h]; exact mono_refl st
  · rw [h]; exact mono_updateStyleTag st ffs
  · rw [h]; exact mono_recordHref env st href
  · rw [h]
    exact mono_trans (mono_recordHref env st href) (mono_updateStyleTag _ ffs)

lemma mono_runPassAux (env : FetchEnv) (sheets : List StyleSheet) :
    ∀ st, Mono st (runPassAux env sheets st).1 := by
  induction sheets with
  | nil => intro st; exact mono_refl st
  | cons s t ih =>
    intro st
    have hm := mono_processSheet env st s
    cases hps : processSheet env st s with
    | ok st' =>
      rw [runPassAux, hps]
      rw [hps] at hm
      exact mono_trans hm (ih st')
    | error st' =>
      rw [runPassAux, hps]
      rw [hps] at hm
      exact hm

lemma fetch_inv_step (env : FetchEnv) (st : EngineState) (sheet : StyleSheet)
    (hnd : st.fetchLog.Nodup) (hsub : ∀ x ∈ st.fetchLog, x ∈ st.requestedCssFiles) :
    (resState (processSheet env st sheet)).fetchLog.Nodup ∧
    (∀ x ∈ (resState (processSheet env st sheet)).fetchLog,
      x ∈ (resState (processSheet env st sheet)).requestedCssFiles) ∧
    (∀ x ∈ st.requestedCssFiles,
      x ∈ (resState (processSheet env st sheet)).fetchLog → x ∈ st.fetchLog) := by
  have hrec : ∀ href, href ∉ st.requestedCssFiles →
      (recordHref env st href).fetchLog.Nodup ∧
      (∀ x ∈ (recordHref env st href).fetchLog, x ∈ (recordHref env st href).requestedCssFiles) ∧
      (∀ x ∈ st.requestedCssFiles, x ∈ (recordHref env st href).fetchLog → x ∈ st.fetchLog) := by
    intro href hmem
    rw [recordHref_fetchLog, recordHref_requested]
    by_cases hc : env.preloadLink href
    · rw [if_pos hc]
      refine ⟨?_, ?_, ?_⟩
      · rw [List.nodup_append]
        refine ⟨hnd, List.nodup_singleton href, ?_⟩
        intro x hx hx1
        rw [List.mem_singleton] at hx1
        subst hx1
        exact hmem (hsub x hx)
      · intro x hx
        rcases List.mem_append.mp hx with hx | hx
        · exact List.mem_cons_of_mem _ (hsub x hx)
        · rw [List.mem_singleton] at hx
          subst hx
          exact List.mem_cons_self _ _
      · intro x hx hfx
        rcases List.mem_append.mp hfx with hfx | hfx
        · exact hfx
        · rw [List.mem_singleton] at hfx
          subst hfx
          exact absurd hx hmem
    · rw [if_neg hc]
      exact ⟨hnd, fun x hx => List.mem_cons_of_mem _ (hsub x hx), fun x _ hfx => hfx⟩
  rcases processSheet_cases env st sheet with h | h | ⟨ffs, _, h⟩ | ⟨href, _, hmem, h | ⟨ffs, h⟩⟩
  · rw [h]; exact ⟨hnd, hsub, fun x _ hfx => hfx⟩
  · rw [h]; exact ⟨hnd, hsub, fun x _ hfx => hfx⟩
  · rw [h]
    simp only [resState, updateStyleTag_fetchLog, updateStyleTag_requested]
    exact ⟨hnd, hsub, fun x _ hfx => hfx⟩
  · rw [h]; exact hrec href hmem
  · rw [h]
    simp only [resState, updateStyleTag_fetchLog, updateStyleTag_requested]
    exact hrec href hmem

lemma fetch_inv_pass (env : FetchEnv) (sheets : List StyleSheet) :
    ∀ st, st.fetchLog.Nodup → (∀ x ∈ st.fetchLog, x ∈ st.requestedCssFiles) →
      (runPassAux env sheets st).1.fetchLog.Nodup ∧
      (∀ x ∈ (runPassAux env sheets st).1.fetchLog,
        x ∈ (runPassAux env sheets st).1.requestedCssFiles) ∧
      (∀ x ∈ st.requestedCssFiles,
        x ∈ (runPassAux env sheets st).1.fetchLog → x ∈ st.fetchLog) := by
  induction sheets with
  | nil => intro st hnd hsub; exact ⟨hnd, hsub, fun x _ hfx => hfx⟩
  | cons s t ih =>
    intro st hnd hsub
    have hstep := fetch_inv_step env st s hnd hsub
    have hreq := (mono_processSheet env st s).2.1
    cases hps : processSheet env st s with
    | error st' =>
      rw [runPassAux, hps]
      rw [hps] at hstep
      exact hstep
    | ok st' =>
      rw [runPassAux, hps]
      rw [hps] at hstep hreq
      have ht := ih st' hstep.1 hstep.2.1
      refine ⟨ht.1, ht.2.1, ?_⟩
      intro x hx hfx
      exact hstep.2.2 x hx (ht.2.2 x (hreq x hx) hfx)

lemma fetch_inv_passes (env : FetchEnv) (passes : List (List StyleSheet)) :
    ∀ st, st.fetchLog.Nodup → (∀ x ∈ st.fetchLog, x ∈ st.requestedCssFiles) →
      (runPasses env passes st).fetchLog.Nodup ∧
      (∀ x ∈ (runPasses env passes st).fetchLog,
        x ∈ (runPasses env passes st).requestedCssFiles) ∧
      (∀ x ∈ st.requestedCssFiles,
        x ∈ (runPasses env passes st).fetchLog → x ∈ st.fetchLog) := by
  induction passes with
  | nil => intro st hnd hsub; exact ⟨hnd, hsub, fun x _ hfx => hfx⟩
  | cons p ps ih =>
    intro st hnd hsub
    have hstep := fetch_inv_pass env p st hnd hsub
    have hreq : ∀ x ∈ st.requestedCssFiles, x ∈ (runPassAux env p st).1.requestedCssFiles :=
      (mono_runPassAux env p st).2.1
    have ht := ih (runPassAux env p st).1 hstep.1 hstep.2.1
    have hrp : runPasses env (p :: ps) st = runPasses env ps (runPassAux env p st).1 := rfl
    rw [hrp]
    refine ⟨ht.1, ht.2.1, ?_⟩
    intro x hx hfx
    exact hstep.2.2 x hx (ht.2.2 x (hreq x hx) hfx)

/-- C7: starting from a state whose fetch log is duplicate-free and covered by
`requestedCssFiles` (as the initial empty state is), any sequence of scan
passes keeps the fetch log duplicate-free — at most one network fetch is ever
issued per href — and never fetches an href that was already recorded in
`requestedCssFiles`; moreover a stylesheet whose direct rule access fails and
whose href is already recorded is skipped outright, leaving the state
untouched. -/
theorem c7_theorem (env : FetchEnv) (passes : List (List StyleSheet)) (st : EngineState)
    (h1 : st.fetchLog.Nodup) (h2 : ∀ x ∈ st.fetchLog, x ∈ st.requestedCssFiles) :
    (runPasses env passes st).fetchLog.Nodup ∧
    (∀ x ∈ st.requestedCssFiles, x ∈ (runPasses env passes st).fetchLog → x ∈ st.fetchLog) ∧
    (∀ (st' : EngineState) (sheet : StyleSheet) (owner : OwnerNode) (href : String),
      sheet.ownerNode = some owner → sheet.directRules = Except.error () →
      sheet.href = some href → href ∈ st'.requestedCssFiles →
      processSheet env st' sheet = Except.ok st') := by
  have hinv := fetch_inv_passes env passes st h1 h2
  refine ⟨hinv.1, hinv.2.2, ?_⟩
  intro st' sheet owner href how hd hh hmem
  by_cases hid : owner.id = extentionStyleTagId
  · simp [processSheet, how, hid]
  · by_cases hm : sheet.mediaText ∈ sheetMediaBlacklist
    · simp [processSheet, how, hid, hm]
    · simp [processSheet, how, hid, hm, hd, hh, hmem]

/-- C7 (witness): two stylesheets sharing the inaccessible href, scanned in
two passes, issue exactly one network fetch. -/
theorem c7_witness :
    st0.fetchLog.Nodup ∧ (∀ x ∈ st0.fetchLog, x ∈ st0.requestedCssFiles) ∧
    (runPasses envFetchFoo [[exCorsSheet, exCorsSheet], [exCorsSheet]] st0).fetchLog.Nodup ∧
    (runPasses envFetchFoo [[exCorsSheet, exCorsSheet], [exCorsSheet]] st0).fetchLog
      = [exHrefA] :=
  ⟨by decide, by decide,
    (c7_theorem envFetchFoo [[exCorsSheet, exCorsSheet], [exCorsSheet]] st0
      (by decide) (by decide)).1,
    by decide⟩

lemma createNewStyleTag_eq (ffs : List FontFamilyRule) (existing : Option (List CSSRule)) :
    createNewStyleTag ffs existing = (existing.getD []) ++
      (ffs.filter (fun rule =>
        !((existing.getD []).any (fun old => old.selectorText == some rule.selectorText)))).map
        mkOverrideRule := by
  cases existing <;> rfl

lemma createNewStyleTag_covers (ffs : List FontFamilyRule) (existing : Option (List CSSRule)) :
    ∀ r ∈ ffs, ∃ o ∈ createNewStyleTag ffs existing, o.selectorText = some r.selectorText := by
  intro r hr
  rw [createNewStyleTag_eq]
  by_cases hc : (existing.getD []).any (fun old => old.selectorText == some r.selectorText)
  · obtain ⟨o, ho, hbeq⟩ := List.any_eq_true.mp hc
    exact ⟨o, List.mem_append_left _ ho, by simpa using hbeq⟩
  · refine ⟨mkOverrideRule r, List.mem_append_right _ ?_, rfl⟩
    exact List.mem_map_of_mem _ (List.mem_filter.mpr ⟨hr, by simp [hc]⟩)

lemma createNewStyleTag_noop {ffs : List FontFamilyRule} {L : List CSSRule}
    (h : ∀ r ∈ ffs, ∃ o ∈ L, o.selectorText = some r.selectorText) :
    createNewStyleTag ffs (some L) = L := by
  rw [createNewStyleTag_eq]
  have hfil : ffs.filter (fun rule =>
      !(((some L : Option (List CSSRule)).getD []).any
        (fun old => old.selectorText == some rule.selectorText))) = [] := by
    rw [List.filter_eq_nil_iff]
    intro r hr
    obtain ⟨o, ho, hsel⟩ := h r hr
    simp only [Option.getD_some, Bool.not_eq_true', List.any_eq_false, not_forall]
    exact ⟨o, ho, by simp [hsel]⟩
  rw [hfil]
  simp

lemma runPassAux_cons_ok {env : FetchEnv} {st st' : EngineState} {s : StyleSheet}
    (t : List StyleSheet) (h : processSheet env st s = Except.ok st') :
    runPassAux env (s :: t) st = runPassAux env t st' := by
  rw [runPassAux, h]

lemma runPassAux_cons_error {env : FetchEnv} {st st' : EngineState} {s : StyleSheet}
    (t : List StyleSheet) (h : processSheet env st s = Except.error st') :
    runPassAux env (s :: t) st = (st', true) := by
  rw [runPassAux, h]

lemma pass1_facts (env : FetchEnv) (sheets : List StyleSheet) :
    ∀ st st1, runPassAux env sheets st = (st1, false) → ∀ s ∈ sheets, SheetFact st1 s := by
  induction sheets with
  | nil => intro st st1 _ s hs; exact absurd hs (List.not_mem_nil s)
  | cons sh t ih =>
    intro st st1 hrun s hs
    cases hps : processSheet env st sh with
    | error st' =>
      rw [runPassAux_cons_error t hps] at hrun
      exact absurd (congrArg Prod.snd hrun) (by simp)
    | ok st'' =>
      rw [runPassAux_cons_ok t hps] at hrun
      have hmono : Mono st'' st1 := by
        have hm := mono_runPassAux env t st''
        rw [hrun] at hm
        exact hm
      rcases List.mem_cons.mp hs with rfl | hmem
      · refine ⟨?_, ?_, ?_⟩
        · intro hnone
          simp [processSheet, hnone] at hps
        · intro ffs hffs
          have hstep := processSheet_of_directBatch env st hffs
          have hst'' : st'' = updateStyleTag st ffs := by
            have := hps.symm.trans hstep
            exact Except.ok.inj this
          subst hst''
          constructor
          · intro hhead1
            have hh : (updateStyleTag st ffs).headAvailable = true := by
              rw [← hmono.1]; exact hhead1
            have hh' : st.headAvailable = true := by
              rw [← updateStyleTag_head st ffs]; exact hh
            have hov : (updateStyleTag st ffs).override
                = some (createNewStyleTag ffs st.override) := by
              rw [updateStyleTag_override, hh', if_pos rfl]
            obtain ⟨L2, hL2⟩ := hmono.2.2.1 (createNewStyleTag ffs st.override) hh hov
            refine ⟨_, hL2, ?_⟩
            intro r hr
            obtain ⟨o, ho, hsel⟩ := createNewStyleTag_covers ffs st.override r hr
            exact ⟨o, List.mem_append_left _ ho, hsel⟩
          · intro hhead0
            have hh : (updateStyleTag st ffs).headAvailable = false := by
              rw [← hmono.1]; exact hhead0
            have hh' : st.headAvailable = false := by
              rw [← updateStyleTag_head st ffs]; exact hh
            have hov : (updateStyleTag st ffs).override = none := by
              rw [updateStyleTag_override, hh']
              simp
            exact hmono.2.2.2 hh hov
        · intro o href how hid hmedia hdr hh hrel
          by_cases hmem2 : href ∈ st.requestedCssFiles
          · have hok : processSheet env st s = Except.ok st := by
              simp [processSheet, how, hid, hmedia, hdr, hh, hmem2]
            have hst : st'' = st := Except.ok.inj (hps.symm.trans hok)
            exact hmono.2.1 href (hst ▸ hmem2)
          · have hfetch : processSheet env st s = processSheetFetch env st href := by
              simp [processSheet, how, hid, hmedia, hdr, hh, hrel, hmem2]
            have hreq : href ∈ st''.requestedCssFiles := by
              rw [hfetch] at hps
              unfold processSheetFetch at hps
              cases hc : collectRulesE (fetchCSSRulesFromUrl env st href).1 with
              | error e2 =>
                rw [hc] at hps
                have : st'' = recordHref env st href := (Except.ok.inj hps).symm
                rw [this, recordHref_requested]
                exact List.mem_cons_self _ _
              | ok ffs =>
                rw [hc] at hps
                have : st'' = updateStyleTag (recordHref env st href) ffs :=
                  (Except.ok.inj hps).symm
                rw [this, updateStyleTag_requested, recordHref_requested]
                exact List.mem_cons_self _ _
            exact hmono.2.1 href hreq
      · exact ih st'' st1 hrun s hmem

lemma pass2_step (env : FetchEnv) {st1 : EngineState} {s : StyleSheet} (hf : SheetFact st1 s)
    {st : EngineState} (hp : projEq st st1) :
    ∃ st', processSheet env st s = Except.ok st' ∧ projEq st' st1 := by
  obtain ⟨hnn, hB, hC⟩ := hf
  obtain ⟨hreq, hov, hhead⟩ := hp
  cases how : s.ownerNode with
  | none => exact absurd how hnn
  | some owner =>
    by_cases h1 : owner.id = extentionStyleTagId
    · exact ⟨st, by simp [processSheet, how, h1], hreq, hov, hhead⟩
    · by_cases h2 : s.mediaText ∈ sheetMediaBlacklist
      · exact ⟨st, by simp [processSheet, how, h1, h2], hreq, hov, hhead⟩
      · cases hd : s.directRules with
        | ok rules =>
          cases hc : collectRulesE rules with
          | error e =>
            exact ⟨st, by simp [processSheet, how, h1, h2, hd, hc], hreq, hov, hhead⟩
          | ok ffs =>
            have hffs : sheetDirectBatch s = some ffs := by
              simp [sheetDirectBatch, how, h1, h2, hd, hc]
            have hB' := hB ffs hffs
            refine ⟨updateStyleTag st ffs,
              by simp [processSheet, how, h1, h2, hd, hc], ?_, ?_, ?_⟩
            · rw [updateStyleTag_requested]; exact hreq
            · cases hhead1 : st1.headAvailable with
              | true =>
                obtain ⟨L, hL, hcov⟩ := hB'.1 hhead1
                have hsthead : st.headAvailable = true := by rw [hhead]; exact hhead1
                have hstov : st.override = some L := by rw [hov]; exact hL
                rw [updateStyleTag_override, hsthead, if_pos rfl, hstov,
                  createNewStyleTag_noop hcov]
                exact hL.symm
              | false =>
                have hnone := hB'.2 hhead1
                have hsthead : st.headAvailable = false := by rw [hhead]; exact hhead1
                rw [updateStyleTag_override, hsthead, if_neg (by simp), hnone]
            · rw [updateStyleTag_head]; exact hhead
        | error e =>
          cases hh : s.href with
          | none => exact ⟨st, by simp [processSheet, how, h1, h2, hd, hh], hreq, hov, hhead⟩
          | some href =>
            by_cases hrel : owner.rel = some relStylesheet
            · have hmem : href ∈ st.requestedCssFiles := by
                rw [hreq]
                exact hC owner href how h1 h2 (by rw [hd]) hh hrel
              exact ⟨st, by simp [processSheet, how, h1, h2, hd, hh, hmem], hreq, hov, hhead⟩
            · exact ⟨st, by simp [processSheet, how, h1, h2, hd, hh, hrel], hreq, hov, hhead⟩

lemma pass2_fold (env : FetchEnv) {st1 : EngineState} (sheets : List StyleSheet)
    (hf : ∀ s ∈ sheets, SheetFact st1 s) :
    ∀ st, projEq st st1 →
      (runPassAux env sheets st).2 = false ∧ projEq (runPassAux env sheets st).1 st1 := by
  induction sheets with
  | nil => intro st hp; exact ⟨rfl, hp⟩
  | cons s t ih =>
    intro st hp
    obtain ⟨st', hps, hp'⟩ := pass2_step env (hf s (List.mem_cons_self s t)) hp
    rw [runPassAux, hps]
    exact ih (fun x hx => hf x (List.mem_cons_of_mem s hx)) st' hp'

/-- C4: idempotence of the scan pass — if a pass over fixed stylesheets from
state `st` completes (no abort) in state `st1`, then running the identical
pass again from `st1` completes, leaves the override element exactly as it
was, and in particular its text content is byte-identical to the text after
the first run (under the model's CSSOM round-trip of rule serialization). -/
theorem c4_theorem (env : FetchEnv) (sheets : List StyleSheet) (st st1 : EngineState)
    (h : updateFontFamilyRules env sheets st = (st1, false)) :
    (updateFontFamilyRules env sheets st1).2 = false ∧
    (updateFontFamilyRules env sheets st1).1.override = st1.override ∧
    ((updateFontFamilyRules env sheets st1).1.override.map styleTagTextContent)
      = st1.override.map styleTagTextContent := by
  unfold updateFontFamilyRules
  have hf := pass1_facts env sheets st st1 h
  have h2 := pass2_fold env sheets hf st1 ⟨rfl, rfl, rfl⟩
  exact ⟨h2.1, h2.2.2.1, by rw [h2.2.2.1]⟩

/-- C4 (witness): the one-sheet pass re-run from its own result leaves the
override element unchanged. -/
theorem c4_witness :
    updateFontFamilyRules envNone [exSheetFoo] st0
      = ((updateFontFamilyRules envNone [exSheetFoo] st0).1, false) ∧
    (updateFontFamilyRules envNone [exSheetFoo]
        (updateFontFamilyRules envNone [exSheetFoo] st0).1).1.override
      = (updateFontFamilyRules envNone [exSheetFoo] st0).1.override := by
  have h : updateFontFamilyRules envNone [exSheetFoo] st0
      = ((updateFontFamilyRules envNone [exSheetFoo] st0).1, false) := by decide
  exact ⟨h, (c4_theorem envNone [exSheetFoo] st0 _ h).2.1⟩

lemma styleSheetsChanged_eq_flat (mutations : List (List DomNode)) (known : List String) :
    styleSheetsChanged mutations known
      = mutations.flatten.foldl styleSheetsChangedNode (false, known) := by
  rw [styleSheetsChanged, List.foldl_flatten]

lemma styleSheetsChangedNode_of_not {known : List String} {n : DomNode}
    (h : ¬ qualifiesNew known n) :
    styleSheetsChangedNode (false, known) n = (false, known) := by
  unfold qualifiesNew at h
  push_neg at h
  by_cases h1 : n.id = extentionStyleTagId
  · simp [styleSheetsChangedNode, h1]
  · by_cases hs : n.nodeName = nodeNameLink ∧
      (n.rel = some relStylesheet ∨ n.asAttr = some asStyleVal)
    · have hmem := h h1 (Or.inl hs)
      rw [nodeIdentifier, if_pos hs] at hmem
      simp [styleSheetsChangedNode, h1, hs, hmem]
    · by_cases hst : n.nodeName = nodeNameStyle
      · have hmem := h h1 (Or.inr hst)
        rw [nodeIdentifier, if_neg hs] at hmem
        have hne : ¬ (nodeNameStyle = nodeNameLink ∧
            (n.rel = some relStylesheet ∨ n.asAttr = some asStyleVal)) :=
          fun hx => absurd hx.1 (by decide)
        simp [styleSheetsChangedNode, h1, hst, hne, hmem]
      · simp [styleSheetsChangedNode, h1, hs, hst]

lemma styleSheetsChangedNode_of_qualifies {known : List String} {n : DomNode}
    (h : qualifiesNew known n) :
    styleSheetsChangedNode (false, known) n = (true, nodeIdentifier n :: known) := by
  obtain ⟨h1, h2, h3⟩ := h
  by_cases hs : n.nodeName = nodeNameLink ∧
    (n.rel = some relStylesheet ∨ n.asAttr = some asStyleVal)
  · rw [nodeIdentifier, if_pos hs] at h3 ⊢
    simp [styleSheetsChangedNode, h1, hs, h3]
  · have hst : n.nodeName = nodeNameStyle := h2.resolve_left hs
    rw [nodeIdentifier, if_neg hs] at h3
    have hne : ¬ (nodeNameStyle = nodeNameLink ∧
        (n.rel = some relStylesheet ∨ n.asAttr = some asStyleVal)) :=
      fun hx => absurd hx.1 (by decide)
    rw [nodeIdentifier, if_neg hs]
    simp [styleSheetsChangedNode, h1, hst, hne, h3]

lemma styleSheetsChangedNode_true (acc : Bool × List String) (n : DomNode) (h : acc.1 = true) :
    (styleSheetsChangedNode acc n).1 = true := by
  rcases acc with ⟨b, ks⟩
  simp only at h
  subst h
  simp only [styleSheetsChangedNode]
  split
  · rfl
  · split
    · rfl
    · split <;> split <;> rfl

lemma fold_changed_true (l : List DomNode) :
    ∀ acc : Bool × List String, acc.1 = true →
      (l.foldl styleSheetsChangedNode acc).1 = true := by
  induction l with
  | nil => intro acc h; exact h
  | cons n t ih =>
    intro acc h
    rw [List.foldl_cons]
    exact ih _ (styleSheetsChangedNode_true acc n h)

lemma fold_changed_of_not (l : List DomNode) (known : List String)
    (h : ∀ n ∈ l, ¬ qualifiesNew known n) :
    l.foldl styleSheetsChangedNode (false, known) = (false, known) := by
  induction l with
  | nil => rfl
  | cons n t ih =>
    rw [List.foldl_cons, styleSheetsChangedNode_of_not (h n (List.mem_cons_self n t))]
    exact ih (fun x hx => h x (List.mem_cons_of_mem n hx))

lemma fold_changed_of_exists (l : List DomNode) (known : List String)
    (h : ∃ n ∈ l, qualifiesNew known n) :
    (l.foldl styleSheetsChangedNode (false, known)).1 = true := by
  induction l with
  | nil => obtain ⟨n, hn, _⟩ := h; exact absurd hn (List.not_mem_nil n)
  | cons n t ih =>
    obtain ⟨m, hm, hq⟩ := h
    rcases List.mem_cons.mp hm with rfl | hmt
    · rw [List.foldl_cons, styleSheetsChangedNode_of_qualifies hq]
      exact fold_changed_true t _ rfl
    · by_cases hq1 : qualifiesNew known n
      · rw [List.foldl_cons, styleSheetsChangedNode_of_qualifies hq1]
        exact fold_changed_true t _ rfl
      · rw [List.foldl_cons, styleSheetsChangedNode_of_not hq1]
        exact ih ⟨m, hmt, hq⟩

lemma styleSheetsChanged_true_iff (mutations : List (List DomNode)) (known : List String) :
    (styleSheetsChanged mutations known).1 = true ↔
      ∃ m ∈ mutations, ∃ n ∈ m, qualifiesNew known n := by
  rw [styleSheetsChanged_eq_flat]
  constructor
  · intro h
    by_contra hno
    push_neg at hno
    have hall : ∀ n ∈ mutations.flatten, ¬ qualifiesNew known n := by
      intro n hn
      obtain ⟨m, hm, hnm⟩ := List.mem_flatten.mp hn
      exact hno m hm n hnm
    rw [fold_changed_of_not _ _ hall] at h
    exact absurd h (by simp)
  · rintro ⟨m, hm, n, hn, hq⟩
    exact fold_changed_of_exists _ _ ⟨n, List.mem_flatten.mpr ⟨m, hm, hn⟩, hq⟩

/-- C8 (counterexample): an added style node that carries the override
element's own id, with a previously-unseen text content, is a style element
with an unseen identifier, yet the Collector/Builder pipeline does not run —
the gating loop ignores the override element's own node, refuting the claim's
unconditional trigger condition. -/
theorem c8_counterexample :
    exNodeExt.nodeName = nodeNameStyle ∧
    exNodeExt.textContent ∉ pg0.lastStyleSheets ∧
    (observerCallback envNone [] [[exNodeExt]] pg0).2.1 = false :=
  ⟨rfl, by decide, by decide⟩

/-- C8 (amended): the pipeline runs exactly when some added node is a
stylesheet-relation or preload-as-style link or a style element, other than
the Override Stylesheet's own node (matched by its fixed id), with a
previously-unseen identifier; the Inline Style Preserver pass runs over every
element exactly when no pipeline pass was triggered or the triggered pass
completed without an uncaught exception. -/
theorem c8_amended (env : FetchEnv) (sheets : List StyleSheet)
    (mutations : List (List DomNode)) (pg : PageState) :
    ((styleSheetsChanged mutations pg.lastStyleSheets).1 = true ↔
      ∃ m ∈ mutations, ∃ n ∈ m, qualifiesNew pg.lastStyleSheets n) ∧
    (observerCallback env sheets mutations pg).2.1
      = (styleSheetsChanged mutations pg.lastStyleSheets).1 ∧
    ((observerCallback env sheets mutations pg).2.2 = true ↔
      ((styleSheetsChanged mutations pg.lastStyleSheets).1 = false ∨
        (updateFontFamilyRules env sheets pg.engine).2 = false)) ∧
    (observerCallback env sheets mutations pg).1.elements
      = (if (observerCallback env sheets mutations pg).2.2 = true
          then pg.elements.map preserveElem else pg.elements) := by
  refine ⟨styleSheetsChanged_true_iff mutations pg.lastStyleSheets, ?_⟩
  by_cases hc : (styleSheetsChanged mutations pg.lastStyleSheets).1 <;>
    by_cases hp : (updateFontFamilyRules env sheets pg.engine).2 <;>
      simp [observerCallback, hc, hp]

/-- C9: the CORS fallback requires a link element whose href attribute equals
the stylesheet URL: without one, `fetchCSSRulesFromUrl` returns no rules and
issues no network fetch, yet the caller still records the href in
`requestedCssFiles`, so any later state containing that href skips the sheet
outright (the URL is never retried). -/
theorem c9_theorem (env : FetchEnv) (st : EngineState) (sheet : StyleSheet)
    (owner : OwnerNode) (href : String)
    (how : sheet.ownerNode = some owner) (hid : owner.id ≠ extentionStyleTagId)
    (hmedia : sheet.mediaText ∉ sheetMediaBlacklist)
    (hdr : sheet.directRules = Except.error ())
    (hh : sheet.href = some href) (hrel : owner.rel = some relStylesheet)
    (hnew : href ∉ st.requestedCssFiles)
    (hpl : env.preloadLink href = false) :
    fetchCSSRulesFromUrl env st href = ([], st) ∧
    (∃ st', processSheet env st sheet = Except.ok st' ∧
      href ∈ st'.requestedCssFiles ∧ st'.fetchLog = st.fetchLog) ∧
    (∀ st2 : EngineState, href ∈ st2.requestedCssFiles →
      processSheet env st2 sheet = Except.ok st2) := by
  have hfetch : fetchCSSRulesFromUrl env st href = ([], st) := by
    simp [fetchCSSRulesFromUrl, hpl]
  refine ⟨hfetch, ?_, ?_⟩
  · have hps : processSheet env st sheet = processSheetFetch env st href := by
      simp [processSheet, how, hid, hmedia, hdr, hh, hrel, hnew]
    refine ⟨updateStyleTag (recordHref env st href) [], ?_, ?_, ?_⟩
    · rw [hps]
      unfold processSheetFetch
      rw [hfetch]
      rfl
    · rw [updateStyleTag_requested, recordHref_requested]
      exact List.mem_cons_self _ _
    · rw [updateStyleTag_fetchLog, recordHref_fetchLog, if_neg (by simp [hpl])]
  · intro st2 hmem2
    simp [processSheet, how, hid, hmedia, hdr, hh, hmem2]

/-- C9 (witness): the concrete CORS sheet in an environment without preload
links. -/
theorem c9_witness :
    fetchCSSRulesFromUrl envNone st0 exHrefA = ([], st0) ∧
    (∃ st', processSheet envNone st0 exCorsSheet = Except.ok st' ∧
      exHrefA ∈ st'.requestedCssFiles ∧ st'.fetchLog = st0.fetchLog) ∧
    (∀ st2 : EngineState, exHrefA ∈ st2.requestedCssFiles →
      processSheet envNone st2 exCorsSheet = Except.ok st2) :=
  c9_theorem envNone st0 exCorsSheet exCorsOwner exHrefA rfl (by decide) (by decide)
    rfl rfl rfl (by decide) rfl

lemma isPrefixOf_cons_cons (a b : Char) (as bs : List Char) :
    (a :: as).isPrefixOf (b :: bs) = (a == b && as.isPrefixOf bs) := rfl

lemma isPrefixOf_append_self (p r : List Char) : p.isPrefixOf (p ++ r) = true := by
  induction p with
  | nil => cases r with | nil => rfl | cons d dt => rfl
  | cons c t ih =>
    rw [List.cons_append, isPrefixOf_cons_cons, ih]
    simp

lemma containsSub_cons_eq (pat : List Char) (c : Char) (rest : List Char) :
    containsSub pat (c :: rest) = (pat.isPrefixOf (c :: rest) || containsSub pat rest) := rfl

lemma containsSub_append (c : Char) (pt pre suf : List Char) :
    containsSub (c :: pt) (pre ++ ((c :: pt) ++ suf)) = true := by
  induction pre with
  | nil =>
    rw [List.nil_append, List.cons_append, containsSub_cons_eq, ← List.cons_append,
      isPrefixOf_append_self, Bool.true_or]
  | cons d pd ih =>
    rw [List.cons_append, containsSub_cons_eq, ih, Bool.or_true]

lemma toList_append (a b : String) : (a ++ b).toList = a.toList ++ b.toList :=
  String.data_append a b

lemma skipWs_cons_not (c : Char) (l : List Char) (h : isWs c = false) :
    skipWs (c :: l) = c :: l := by
  simp [skipWs, List.dropWhile_cons, h]

lemma skipWs_cons_ws (c : Char) (l : List Char) (h : isWs c = true) :
    skipWs (c :: l) = skipWs l := by
  simp [skipWs, List.dropWhile_cons, h]

lemma skipWs_append_exists (m t : List Char) (h : ∃ c ∈ m, isWs c = false) :
    ∃ c0 r0, skipWs (m ++ t) = c0 :: (r0 ++ t) ∧ c0 ∈ m ∧ isWs c0 = false := by
  induction m with
  | nil => obtain ⟨c, hc, _⟩ := h; exact absurd hc (List.not_mem_nil c)
  | cons c mt ih =>
    by_cases hw : isWs c = true
    · obtain ⟨c', hc', hw'⟩ := h
      have hc'mt : c' ∈ mt := by
        rcases List.mem_cons.mp hc' with rfl | hmt
        · rw [hw] at hw'; exact absurd hw' (by simp)
        · exact hmt
      rw [List.cons_append, skipWs_cons_ws c _ hw]
      obtain ⟨c0, r0, heq, hm, hnw⟩ := ih ⟨c', hc'mt, hw'⟩
      exact ⟨c0, r0, heq, List.mem_cons_of_mem c hm, hnw⟩
    · rw [List.cons_append, skipWs_cons_not c _ (by simpa using hw)]
      exact ⟨c, mt, rfl, List.mem_cons_self c mt, by simpa using hw⟩

lemma matchAfterValue_none {m t : List Char} (hne : ∃ c ∈ m, isWs c = false)
    (hchars : ∀ c ∈ m, c ≠ ';' ∧ c ≠ '!') :
    matchAfterValue (m ++ t) = none := by
  obtain ⟨c0, r0, heq, hm, hnw⟩ := skipWs_append_exists m t hne
  have hc0 := hchars c0 hm
  have hpre : impLit.isPrefixOf (c0 :: (r0 ++ t)) = false := by
    rw [show impLit = '!' :: "important".toList from rfl, isPrefixOf_cons_cons]
    have hb : ('!' == c0) = false := by simp [Ne.symm hc0.2]
    rw [hb, Bool.false_and]
  have hterm : termAt (m ++ t) = false := by
    unfold termAt
    rw [heq]
    have hb : (c0 == ';') = false := by simp [hc0.1]
    exact hb
  simp only [matchAfterValue]
  rw [heq, hpre, Bool.false_and, if_neg (by simp), hterm, if_neg (by simp)]

lemma matchAfterValue_semi (ts : List Char) : matchAfterValue (';' :: ts) = some false := rfl

lemma matchAfterValue_imp (ts : List Char) :
    matchAfterValue (' ' :: (impLit ++ (';' :: ts))) = some true := rfl

lemma findValue_through {t : List Char} {b : Bool} (hmv : matchAfterValue t = some b) :
    ∀ m : List Char, m ≠ [] → (∀ c ∈ m, c ≠ ';' ∧ c ≠ '!') →
      (∀ c, m.getLast? = some c → isWs c = false) →
      ∀ acc, findValue acc (m ++ t) = some (acc ++ m, b) := by
  intro m
  induction m with
  | nil => intro h _ _ _; exact absurd rfl h
  | cons c mt ih =>
    intro _ hchars hlast acc
    have hc := hchars c (List.mem_cons_self c mt)
    have hcsemi : (c == ';') = false := by simp [hc.1]
    by_cases hmt : mt = []
    · subst hmt
      simp only [List.cons_append, List.nil_append, findValue, hcsemi]
      rw [if_neg (by simp), show ([] : List Char).append t = t from rfl, hmv]
    · have hlast' : ∀ c', mt.getLast? = some c' → isWs c' = false := by
        intro c' hc'
        apply hlast
        obtain ⟨d, dt, hdt⟩ := List.exists_cons_of_ne_nil hmt
        rw [hdt] at hc' ⊢
        rw [List.getLast?_cons_cons]
        exact hc'
      have hne : ∃ c' ∈ mt, isWs c' = false :=
        ⟨mt.getLast hmt, List.getLast_mem hmt, hlast' _ (List.getLast?_eq_getLast mt hmt)⟩
      have hnone := matchAfterValue_none (t := t) hne
        (fun c' hc' => hchars c' (List.mem_cons_of_mem c hc'))
      have hrec := ih hmt (fun c' hc' => hchars c' (List.mem_cons_of_mem c hc')) hlast' (acc ++ [c])
      simp only [List.cons_append, findValue, hcsemi]
      rw [if_neg (by simp), show mt.append t = mt ++ t from rfl, hnone, hrec]
      simp

lemma trimChars_eq {l : List Char} (hh : ∀ c, l.head? = some c → isWs c = false)
    (hl : ∀ c, l.getLast? = some c → isWs c = false) :
    trimChars l = l := by
  cases hl0 : l with
  | nil => rfl
  | cons c t =>
    unfold trimChars
    have hdw : (c :: t).dropWhile isWs = c :: t := by
      rw [List.dropWhile_cons, if_neg]
      rw [hh c (by rw [hl0]; rfl)]
      simp
    rw [hdw]
    cases hrev : (c :: t).reverse with
    | nil => exact absurd hrev (by simp)
    | cons d dt =>
      have hd : isWs d = false := by
        apply hl
        rw [hl0, ← List.head?_reverse, hrev]
        rfl
      rw [List.dropWhile_cons, if_neg (by rw [hd]; simp), ← hrev, List.reverse_reverse]

lemma exec_head {c : Char} {r : List Char} {res : List Char × Bool}
    (h : matchAt (c :: r) = some res) :
    execFontFamilyRegex (c :: r) = some res := by
  simp only [execFontFamilyRegex, h]

lemma isPrefixOf_shorten (p : List Char) : ∀ a b : List Char, p.isPrefixOf (a ++ b) = true →
    p.length ≤ a.length → p.isPrefixOf a = true := by
  induction p with
  | nil => intro a _ _ _; cases a with | nil => rfl | cons d dt => rfl
  | cons c ps ih =>
    intro a b h hlen
    cases a with
    | nil => exact absurd hlen (by simp)
    | cons d dt =>
      rw [List.cons_append, isPrefixOf_cons_cons, Bool.and_eq_true] at h
      rw [isPrefixOf_cons_cons, h.1, Bool.true_and]
      exact ih dt b h.2 (by simpa using hlen)

lemma isPrefixOf_split (a : List Char) : ∀ p b : List Char, p.isPrefixOf (a ++ b) = true →
    a.length < p.length → a = p.take a.length ∧ (p.drop a.length).isPrefixOf b = true := by
  induction a with
  | nil => intro p b h _; exact ⟨rfl, by simpa using h⟩
  | cons d dt ih =>
    intro p b h hlen
    cases p with
    | nil => exact absurd hlen (by simp)
    | cons c ps =>
      rw [List.cons_append, isPrefixOf_cons_cons, Bool.and_eq_true] at h
      have hcd : c = d := by simpa using h.1
      have hrec := ih ps b h.2 (by simpa using hlen)
      constructor
      · rw [List.length_cons, List.take_succ_cons, ← hrec.1, hcd]
      · rw [List.length_cons, List.drop_succ_cons]
        exact hrec.2

lemma ffLit_no_overlap : ∀ k, k < 11 → 1 ≤ k → ((ffLit.drop k).isPrefixOf ffLit) = false := by
  decide

lemma exec_after {tail : List Char} {res : List Char × Bool} :
    ∀ preText : List Char, containsSub ffLit preText = false →
      matchAt (ffLit ++ tail) = some res →
      execFontFamilyRegex (preText ++ (ffLit ++ tail)) = some res := by
  intro preText
  induction preText with
  | nil =>
    intro _ hm
    rw [List.nil_append]
    rw [show ffLit ++ tail = 'f' :: ("ont-family".toList ++ tail) from rfl] at hm ⊢
    exact exec_head hm
  | cons c ct ih =>
    intro hpre hm
    rw [containsSub_cons_eq, Bool.or_eq_false_iff] at hpre
    have hnp : ffLit.isPrefixOf ((c :: ct) ++ (ffLit ++ tail)) = false := by
      cases hp : ffLit.isPrefixOf ((c :: ct) ++ (ffLit ++ tail)) with
      | false => rfl
      | true =>
        exfalso
        by_cases hlen : ffLit.length ≤ (c :: ct).length
        · have hsh := isPrefixOf_shorten ffLit (c :: ct) (ffLit ++ tail) hp hlen
          rw [hpre.1] at hsh
          exact Bool.noConfusion hsh
        · push_neg at hlen
          obtain ⟨-, hdrop⟩ := isPrefixOf_split (c :: ct) ffLit (ffLit ++ tail) hp hlen
          have hdrop2 : (ffLit.drop (c :: ct).length).isPrefixOf ffLit = true := by
            apply isPrefixOf_shorten _ ffLit tail hdrop
            rw [List.length_drop]
            exact Nat.sub_le _ _
          have hk2 : (c :: ct).length < 11 := by
            have hfl : ffLit.length = 11 := by decide
            rw [hfl] at hlen
            exact hlen
          have hno := ffLit_no_overlap (c :: ct).length hk2
            (by rw [List.length_cons]; exact Nat.le_add_left 1 ct.length)
          rw [hno] at hdrop2
          exact Bool.noConfusion hdrop2
    have hmn : matchAt (c :: (ct ++ (ffLit ++ tail))) = none := by
      have hnp2 : ffLit.isPrefixOf (c :: (ct ++ (ffLit ++ tail))) = false := by
        rw [← List.cons_append]
        exact hnp
      simp [matchAt, hnp2]
    rw [List.cons_append]
    simp only [execFontFamilyRegex]
    rw [hmn]
    exact ih hpre.2 hm

lemma matchAfterColon_found {r : List Char} {res : List Char × Bool}
    (h : findValue [] (r.dropWhile isWs) = some res) :
    matchAfterColon r = some res := by
  unfold matchAfterColon
  cases hrev : (r.takeWhile isWs).reverse with
  | nil => simpa [wsAttempts] using h
  | cons w ws => simp [wsAttempts, h]

lemma serializeStyle_cons_ne (p : Decl) (l : List Decl) (h : l ≠ []) :
    serializeStyle (p :: l) = serializeDecl p ++ " " ++ serializeStyle l := by
  cases l with
  | nil => exact absurd rfl h
  | cons q qt => rfl

lemma serializeStyle_decomp (d : Decl) (rest : List Decl) :
    ∀ pre : List Decl,
      (serializeStyle (pre ++ (d :: rest))).toList
        = styleTextBefore pre ++ (serializeStyle (d :: rest)).toList := by
  intro pre
  induction pre with
  | nil => rw [List.nil_append]; rfl
  | cons p pt ih =>
    rw [List.cons_append, serializeStyle_cons_ne p (pt ++ (d :: rest)) (by simp),
      toList_append, toList_append, ih]
    rw [show (" " : String).toList = [' '] from rfl]
    show ((serializeDecl p).toList ++ [' ']) ++ (styleTextBefore pt
        ++ (serializeStyle (d :: rest)).toList)
      = ((serializeDecl p).toList ++ ' ' :: styleTextBefore pt)
        ++ (serializeStyle (d :: rest)).toList
    simp [List.append_assoc]

lemma setFontFamilyDecl_locate (v0 v : String) (imp : Bool) (post : List Decl)
    (hpost : ∀ d ∈ post, d.name ≠ fontFamilyProp) :
    ∀ pre : List Decl, (∀ d ∈ pre, d.name ≠ fontFamilyProp) →
      setFontFamilyDecl v
          (pre ++ ({ name := fontFamilyProp, value := v0, important := imp } :: post))
        = pre ++ ({ name := fontFamilyProp, value := v, important := true } :: post) := by
  intro pre
  induction pre with
  | nil =>
    intro _
    rw [List.nil_append, List.nil_append]
    simp only [setFontFamilyDecl]
    rw [if_pos (by simp)]
    show ({ name := fontFamilyProp, value := v, important := true } : Decl)
        :: post.filter (fun d2 => !(d2.name == fontFamilyProp))
      = { name := fontFamilyProp, value := v, important := true } :: post
    congr 1
    exact List.filter_eq_self.mpr (fun d hd => by simp [hpost d hd])
  | cons p pt ih =>
    intro hpre
    rw [List.cons_append, List.cons_append]
    simp only [setFontFamilyDecl]
    rw [if_neg (by simp [hpre p (List.mem_cons_self p pt)]),
      ih (fun d hd => hpre d (List.mem_cons_of_mem p hd))]

lemma setProp_locate (v0 v : String) (imp : Bool) (pre post : List Decl)
    (hvne : v.toList ≠ [])
    (hpre : ∀ d ∈ pre, d.name ≠ fontFamilyProp)
    (hpost : ∀ d ∈ post, d.name ≠ fontFamilyProp) :
    setPropertyFontFamily
        (pre ++ ({ name := fontFamilyProp, value := v0, important := imp } :: post)) v
      = pre ++ ({ name := fontFamilyProp, value := v, important := true } :: post) := by
  have hvne' : (v == "") = false := by
    rw [beq_eq_false_iff_ne]
    intro he
    apply hvne
    rw [he]
    rfl
  have hany : ((pre ++ ({ name := fontFamilyProp, value := v0, important := imp } :: post)).any
      (fun d => d.name == fontFamilyProp)) = true := by
    rw [List.any_eq_true]
    exact ⟨{ name := fontFamilyProp, value := v0, important := imp },
      List.mem_append_right pre (List.mem_cons_self _ _), by simp⟩
  unfold setPropertyFontFamily
  rw [if_neg (by rw [hvne']; exact Bool.false_ne_true), if_pos hany]
  exact setFontFamilyDecl_locate v0 v imp post hpost pre hpre

lemma serialize_ffdecl (v : String) (imp : Bool) (post : List Decl) :
    ∃ ts : List Char,
      (serializeStyle ({ name := fontFamilyProp, value := v, important := imp } :: post)).toList
        = ffLit ++ (':' :: ' ' :: (v.toList ++
            ((if imp then ' ' :: impLit else []) ++ (';' :: ts)))) := by
  cases post with
  | nil =>
    refine ⟨[], ?_⟩
    show (serializeDecl _).toList = _
    unfold serializeDecl
    cases imp <;>
      simp [toList_append, List.append_assoc,
        show (": " : String).toList = [':', ' '] from rfl,
        show (";" : String).toList = [';'] from rfl,
        show (" !important" : String).toList = ' ' :: impLit from rfl,
        show impLit = ['!', 'i', 'm', 'p', 'o', 'r', 't', 'a', 'n', 't'] from rfl,
        show ffLit = fontFamilyProp.data from rfl]
  | cons d pd =>
    refine ⟨' ' :: (serializeStyle (d :: pd)).toList, ?_⟩
    show (serializeDecl _ ++ " " ++ serializeStyle (d :: pd)).toList = _
    unfold serializeDecl
    cases imp <;>
      simp [toList_append, List.append_assoc,
        show (": " : String).toList = [':', ' '] from rfl,
        show (";" : String).toList = [';'] from rfl,
        show (" " : String).toList = [' '] from rfl,
        show (" !important" : String).toList = ' ' :: impLit from rfl,
        show impLit = ['!', 'i', 'm', 'p', 'o', 'r', 't', 'a', 'n', 't'] from rfl,
        show ffLit = fontFamilyProp.data from rfl]

/-- C10 (counterexample): the Preserver is not the claimed
rewrite-then-no-op per element.  The inline style
`--font-family: Arial; font-family: Georgia;` sets a font-family without
`!important`, yet the first regex match starts inside the custom property
`--font-family`, so one application rewrites the genuine font-family to the
value `Arial` of the custom property (not `Georgia`), and on the rewritten
attribute the first match again starts inside the custom property and reports
no `!important`, so a second application does not take the already-important
no-op branch. -/
theorem c10_counterexample :
    ({ name := fontFamilyProp, value := "Georgia", important := false } : Decl)
      ∈ exCustomPropDecls ∧
    (∀ d ∈ exCustomPropDecls, d.important = false) ∧
    preserveCustomFonts (some ⟨some exCustomPropDecls⟩) = some ⟨some exCustomPropOnce⟩ ∧
    (∀ d ∈ exCustomPropOnce, d.name = fontFamilyProp → d.value ≠ "Georgia") ∧
    execFontFamilyRegex (serializeStyle exCustomPropOnce).toList
      = some (exFontVal.toList, false) := by
  decide

/-- C10 (amended): restricted idempotence of the Inline Style Preserver.  For
an element whose style attribute consists of declarations for other
properties whose serialized text does not contain the literal `font-family`,
then a font-family declaration with a clean value (no `;` or `!`,
non-whitespace first and last character) without `!important`, then further
non-font-family declarations: one application re-applies that value with
forced priority, after which the serialized style attribute carries
`!important`; a second application takes the already-important no-op branch,
so applying the Preserver twice leaves the element exactly as applying it
once.  (Unrestricted, the claim fails: see the counterexample, where the
first match starts inside a `--font-family` custom property.) -/
theorem c10_amended (v : String) (pre post : List Decl)
    (hvne : v.toList ≠ [])
    (hvchars : ∀ c ∈ v.toList, c ≠ ';' ∧ c ≠ '!')
    (hvhead : ∀ c, v.toList.head? = some c → isWs c = false)
    (hvlast : ∀ c, v.toList.getLast? = some c → isWs c = false)
    (hprename : ∀ d ∈ pre, d.name ≠ fontFamilyProp)
    (hpretext : containsSub ffLit (styleTextBefore pre) = false)
    (hpost : ∀ d ∈ post, d.name ≠ fontFamilyProp) :
    preserveCustomFonts
        (some ⟨some (pre ++ ({ name := fontFamilyProp, value := v, important := false } :: post))⟩)
      = some ⟨some (pre ++ ({ name := fontFamilyProp, value := v, important := true } :: post))⟩ ∧
    strIncludes
      (serializeStyle (pre ++ ({ name := fontFamilyProp, value := v, important := true } :: post)))
      importantLit = true ∧
    preserveCustomFonts (preserveCustomFonts
        (some ⟨some (pre ++ ({ name := fontFamilyProp, value := v, important := false } :: post))⟩))
      = preserveCustomFonts
        (some ⟨some (pre ++ ({ name := fontFamilyProp, value := v, important := false } :: post))⟩) := by
  obtain ⟨ts0, hs0⟩ := serialize_ffdecl v false post
  replace hs0 : (serializeStyle
      ({ name := fontFamilyProp, value := v, important := false } :: post)).toList
      = ffLit ++ (':' :: ' ' :: (v.toList ++ (';' :: ts0))) := by
    rw [hs0]
    simp
  obtain ⟨ts1, hs1⟩ := serialize_ffdecl v true post
  replace hs1 : (serializeStyle
      ({ name := fontFamilyProp, value := v, important := true } :: post)).toList
      = ffLit ++ (':' :: ' ' :: (v.toList ++ (' ' :: (impLit ++ (';' :: ts1))))) := by
    rw [hs1]
    simp
  have hS0 : (serializeStyle
      (pre ++ ({ name := fontFamilyProp, value := v, important := false } :: post))).toList
      = styleTextBefore pre ++ (ffLit ++ (':' :: ' ' :: (v.toList ++ (';' :: ts0)))) := by
    rw [serializeStyle_decomp, hs0]
  have hS1 : (serializeStyle
      (pre ++ ({ name := fontFamilyProp, value := v, important := true } :: post))).toList
      = styleTextBefore pre
        ++ (ffLit ++ (':' :: ' ' :: (v.toList ++ (' ' :: (impLit ++ (';' :: ts1)))))) := by
    rw [serializeStyle_decomp, hs1]
  obtain ⟨c, vt, hcv⟩ := List.exists_cons_of_ne_nil hvne
  have hne0 : ((serializeStyle
      (pre ++ ({ name := fontFamilyProp, value := v, important := false } :: post))) == "")
      = false := by
    rw [beq_eq_false_iff_ne]
    intro he
    have h2 : (serializeStyle
        (pre ++ ({ name := fontFamilyProp, value := v, important := false } :: post))).toList
        = ([] : List Char) := by rw [he]; rfl
    rw [hS0] at h2
    rcases List.append_eq_nil.mp h2 with ⟨-, hf⟩
    rcases List.append_eq_nil.mp hf with ⟨hf2, -⟩
    exact absurd hf2 (by decide)
  have hne1 : ((serializeStyle
      (pre ++ ({ name := fontFamilyProp, value := v, important := true } :: post))) == "")
      = false := by
    rw [beq_eq_false_iff_ne]
    intro he
    have h2 : (serializeStyle
        (pre ++ ({ name := fontFamilyProp, value := v, important := true } :: post))).toList
        = ([] : List Char) := by rw [he]; rfl
    rw [hS1] at h2
    rcases List.append_eq_nil.mp h2 with ⟨-, hf⟩
    rcases List.append_eq_nil.mp hf with ⟨hf2, -⟩
    exact absurd hf2 (by decide)
  have hinc0 : strIncludes (serializeStyle
      (pre ++ ({ name := fontFamilyProp, value := v, important := false } :: post)))
      fontFamilyProp = true := by
    unfold strIncludes
    rw [hS0]
    exact containsSub_append 'f' ("ont-family".toList) (styleTextBefore pre) _
  have hinc1 : strIncludes (serializeStyle
      (pre ++ ({ name := fontFamilyProp, value := v, important := true } :: post)))
      fontFamilyProp = true := by
    unfold strIncludes
    rw [hS1]
    exact containsSub_append 'f' ("ont-family".toList) (styleTextBefore pre) _
  have hskip : skipWs (v.toList ++ (';' :: ts0)) = v.toList ++ (';' :: ts0) := by
    rw [hcv, List.cons_append, skipWs_cons_not c _ (hvhead c (by rw [hcv]; rfl))]
  have hskip1 : skipWs (v.toList ++ (' ' :: (impLit ++ (';' :: ts1))))
      = v.toList ++ (' ' :: (impLit ++ (';' :: ts1))) := by
    rw [hcv, List.cons_append, skipWs_cons_not c _ (hvhead c (by rw [hcv]; rfl))]
  have hmatch0 : matchAt (ffLit ++ (':' :: ' ' :: (v.toList ++ (';' :: ts0))))
      = some (v.toList, false) := by
    rw [show matchAt (ffLit ++ (':' :: ' ' :: (v.toList ++ (';' :: ts0))))
        = matchAfterColon (' ' :: (v.toList ++ (';' :: ts0))) from rfl]
    apply matchAfterColon_found
    rw [show (' ' :: (v.toList ++ (';' :: ts0))).dropWhile isWs
        = skipWs (v.toList ++ (';' :: ts0)) from rfl, hskip]
    simpa using findValue_through (matchAfterValue_semi ts0) v.toList hvne hvchars hvlast []
  have hmatch1 : matchAt (ffLit ++ (':' :: ' ' :: (v.toList ++ (' ' :: (impLit ++ (';' :: ts1))))))
      = some (v.toList, true) := by
    rw [show matchAt (ffLit ++ (':' :: ' ' :: (v.toList ++ (' ' :: (impLit ++ (';' :: ts1))))))
        = matchAfterColon (' ' :: (v.toList ++ (' ' :: (impLit ++ (';' :: ts1))))) from rfl]
    apply matchAfterColon_found
    rw [show (' ' :: (v.toList ++ (' ' :: (impLit ++ (';' :: ts1))))).dropWhile isWs
        = skipWs (v.toList ++ (' ' :: (impLit ++ (';' :: ts1)))) from rfl, hskip1]
    simpa using findValue_through (matchAfterValue_imp ts1) v.toList hvne hvchars hvlast []
  have hregex0 : execFontFamilyRegex (serializeStyle
      (pre ++ ({ name := fontFamilyProp, value := v, important := false } :: post))).data
      = some (v.toList, false) := by
    rw [show ((serializeStyle
        (pre ++ ({ name := fontFamilyProp, value := v, important := false } :: post))).data)
        = (serializeStyle
        (pre ++ ({ name := fontFamilyProp, value := v, important := false } :: post))).toList
        from rfl, hS0]
    exact exec_after (styleTextBefore pre) hpretext hmatch0
  have hregex1 : execFontFamilyRegex (serializeStyle
      (pre ++ ({ name := fontFamilyProp, value := v, important := true } :: post))).data
      = some (v.toList, true) := by
    rw [show ((serializeStyle
        (pre ++ ({ name := fontFamilyProp, value := v, important := true } :: post))).data)
        = (serializeStyle
        (pre ++ ({ name := fontFamilyProp, value := v, important := true } :: post))).toList
        from rfl, hS1]
    exact exec_after (styleTextBefore pre) hpretext hmatch1
  have htrim : String.mk (trimChars v.data) = v := by
    rw [show (v.data : List Char) = v.toList from rfl, trimChars_eq hvhead hvlast]
    rfl
  have happ1 : preserveCustomFonts
      (some ⟨some (pre ++ ({ name := fontFamilyProp, value := v, important := false } :: post))⟩)
      = some ⟨some (pre ++ ({ name := fontFamilyProp, value := v, important := true } :: post))⟩ := by
    simp [preserveCustomFonts, getAttributeStyle, hne0, hinc0, hregex0, htrim,
      setProp_locate v v false pre post hvne hprename hpost]
  have happ2 : preserveCustomFonts
      (some ⟨some (pre ++ ({ name := fontFamilyProp, value := v, important := true } :: post))⟩)
      = some ⟨some (pre ++ ({ name := fontFamilyProp, value := v, important := true } :: post))⟩ := by
    simp [preserveCustomFonts, getAttributeStyle, hne1, hinc1, hregex1]
  have hconj2 : strIncludes (serializeStyle
      (pre ++ ({ name := fontFamilyProp, value := v, important := true } :: post)))
      importantLit = true := by
    unfold strIncludes
    have hshape : (serializeStyle
        (pre ++ ({ name := fontFamilyProp, value := v, important := true } :: post))).toList
        = (styleTextBefore pre ++ (ffLit ++ (':' :: ' ' :: (v.toList ++ [' '])))) ++
          (('!' :: "important".toList) ++ (';' :: ts1)) := by
      rw [hS1]
      simp [show impLit = '!' :: "important".toList from rfl]
    rw [show importantLit.toList = '!' :: "important".toList from rfl, hshape]
    exact containsSub_append '!' ("important".toList) _ _
  exact ⟨happ1, hconj2, by rw [happ1, happ2]⟩

/-- C10 (amended, witness): the concrete element whose inline style is
`color: red; font-family: Arial`, run through the amended theorem. -/
theorem c10_amended_witness :
    exFontVal.toList ≠ [] ∧
    containsSub ffLit (styleTextBefore [exPreColor]) = false ∧
    (preserveCustomFonts
        (some ⟨some ([exPreColor]
          ++ ({ name := fontFamilyProp, value := exFontVal, important := false } :: []))⟩)
      = some ⟨some ([exPreColor]
          ++ ({ name := fontFamilyProp, value := exFontVal, important := true } :: []))⟩ ∧
    strIncludes (serializeStyle ([exPreColor]
        ++ ({ name := fontFamilyProp, value := exFontVal, important := true } :: [])))
      importantLit = true ∧
    preserveCustomFonts (preserveCustomFonts
        (some ⟨some ([exPreColor]
          ++ ({ name := fontFamilyProp, value := exFontVal, important := false } :: []))⟩))
      = preserveCustomFonts
        (some ⟨some ([exPreColor]
          ++ ({ name := fontFamilyProp, value := exFontVal, important := false } :: []))⟩)) :=
  ⟨by decide, by decide, c10_amended exFontVal [exPreColor] []
    (by decide)
    (by decide)
    (by
      intro c hc
      rw [show (exFontVal.toList).head? = some 'A' from rfl] at hc
      injection hc with h
      subst h
      decide)
    (by
      intro c hc
      rw [show (exFontVal.toList).getLast? = some 'l' from rfl] at hc
      injection hc with h
      subst h
      decide)
    (by decide)
    (by decide)
    (by intro d hd; exact absurd hd (List.not_mem_nil d))⟩

end FlagFixer
